import Mathlib

/-!
Verification development for the Open Badges JSON serialization and
lifecycle engine of apps/issuer/models.py (badgr-server).

The Python models are embedded shallowly: Django model rows become Lean
structures, the JSON builders become pure functions on those structures,
and the diff-and-reconcile collection setters become pure functions from
a persisted table plus a desired list to a new table.  Ordered Python
dicts are association lists.  Helpers that live in issuer/utils.py (not
part of the excerpt) are modelled from the spec and say so in their doc
comments.
-/

/-- JSON values with ordered object fields (a Python dict preserves
insertion order, so an object is an association list). -/
inductive Json where
  | null : Json
  | str : String → Json
  | bool : Bool → Json
  | obj : List (String × Json) → Json
  | arr : List Json → Json

/-- Keys of an ordered JSON object, in order. -/
def keysOf (j : List (String × Json)) : List String := j.map Prod.fst

/-- Python membership test: key in dict. -/
def hasKey (j : List (String × Json)) (k : String) : Bool := j.any (fun p => p.1 == k)

/-- Python dict read: the binding of k (first binding wins; dicts built by
the code have unique keys). -/
def lookupKey (j : List (String × Json)) (k : String) : Option Json :=
  (j.find? (fun p => p.1 == k)).map Prod.snd

/-- Python dict assignment dict[k] = v: replace the value in place when the
key exists (keeping its position), else append the binding at the end. -/
def upsert (j : List (String × Json)) (k : String) (v : Json) : List (String × Json) :=
  if hasKey j k then j.map (fun p => if p.1 == k then (p.1, v) else p) else j ++ [(k, v)]

/-- The passthrough loop of get_json: append every extra binding whose key
is not already present in the document. -/
def passthrough (j : List (String × Json)) (extra : List (String × Json)) : List (String × Json) :=
  extra.foldl (fun acc kv => if hasKey acc kv.1 then acc else acc ++ [kv]) j

/-- Python truthiness of an optional string field (None and the empty
string are falsy). -/
def truthy : Option String → Bool
  | none => false
  | some s => decide (s ≠ "")

/-- Render an optional string as a JSON value (None becomes null). -/
def jsonOfOptStr : Option String → Json
  | none => Json.null
  | some s => Json.str s

/-- Supported Open Badges versions.  Modelled from the spec: the context
resolver supports exactly 1_1 and 2_0 (issuer/utils.py is not part of the
excerpt); the unversioned current alias resolves to 2_0. -/
inductive ObiVersion where
  | v1_1 : ObiVersion
  | v2_0 : ObiVersion
deriving DecidableEq

/-- Version token as used in id suffixes. -/
def ObiVersion.token : ObiVersion → String
  | .v1_1 => "1_1"
  | .v2_0 => "2_0"

/-- Modelled from the spec: the fixed JSON-LD context IRI of each
supported version. -/
def contextIri : ObiVersion → String
  | .v1_1 => "https://w3id.org/openbadges/v1"
  | .v2_0 => "https://w3id.org/openbadges/v2"

/-- Modelled from the spec: resolve(version) = (normalized version,
context iri).  On the two-constructor version type every token is
supported, so normalization is the identity. -/
def get_obi_context (v : ObiVersion) : ObiVersion × String := (v, contextIri v)

/-- Modelled from the spec: append the version-disambiguation suffix to an
entity id when rendering a non-canonical representation (the callers guard
the canonical case with use_canonical_id). -/
def add_obi_version_ifneeded (url : String) (v : ObiVersion) : String :=
  url ++ "?v=" ++ v.token

/-- The configured HTTP origin (OriginSetting.HTTP). -/
def originHTTP : String := "https://example.org"

/-- OriginalJsonMixin.get_filtered_json: the parsed original JSON with the
excluded canonical fields stripped, preserving key order.  The Option is
none when the stored blob is absent, blank or unparsable (get_original_json
fails soft). -/
def filteredOriginal (orig : Option (List (String × Json))) (excluded : List String) :
    Option (List (String × Json)) :=
  orig.map (fun o => o.filter (fun kv => !excluded.contains kv.1))

/-- Issuer: the fields consumed by the JSON builder.  original_json is the
parsed import blob (none when absent or unparsable); extensions are the
cached extension rows as (name, parsed original_json) pairs. -/
structure IssuerR where
  entity_id : String
  name : String
  url : Option String
  email : Option String
  description : Option String
  category : String
  image : Option String
  source_url : Option String
  original_json : Option (List (String × Json))
  extensions : List (String × Json)

/-- reverse of issuer_json for this entity. -/
def IssuerR.get_absolute_url (i : IssuerR) : String := "/public/issuers/" ++ i.entity_id

/-- Issuer.public_url. -/
def IssuerR.public_url (i : IssuerR) : String := originHTTP ++ i.get_absolute_url

/-- Issuer.jsonld_id: the external provenance URL when imported, else the
locally constructed public URL. -/
def IssuerR.jsonld_id (i : IssuerR) : String :=
  match i.source_url with
  | some s => if s = "" then i.public_url else s
  | none => i.public_url

/-- Issuer.image_url(public=True): None when the issuer has no image. -/
def IssuerR.image_url_public (i : IssuerR) : Option String :=
  if truthy i.image then some (originHTTP ++ "/public/issuers/" ++ i.entity_id ++ "/image")
  else none

/-- The exclusion list of Issuer.get_filtered_json. -/
def issuerExcludedFields : List String :=
  ["@context", "id", "type", "name", "url", "description", "image", "email"]

/-- Issuer.get_filtered_json. -/
def IssuerR.get_filtered_json (i : IssuerR) : Option (List (String × Json)) :=
  filteredOriginal i.original_json issuerExcludedFields

/-- Append the cached extension sub-documents as top-level keys (the loop
json[extension.name] = loads(extension.original_json)). -/
def appendExtensions (j : List (String × Json)) (exts : List (String × Json)) :
    List (String × Json) :=
  exts.foldl (fun acc e => upsert acc e.1 e.2) j

/-- The imported-image override block shared by the three builders: when
the original JSON carries a dict-valued image, it replaces the image value
while its id sub-key is overwritten with the locally computed URL. -/
def imageOverride (orig : Option (List (String × Json))) (image_url : Option String)
    (j : List (String × Json)) : List (String × Json) :=
  match orig with
  | some o =>
    match lookupKey o "image" with
    | some (Json.obj info) => upsert j "image" (Json.obj (upsert info "id" (jsonOfOptStr image_url)))
    | _ => j
  | none => j

/-- The source-url block shared by the three builders: an imported entity
advertises its provenance URL and its hosted URL under version-specific
key spellings. -/
def sourceUrlStep (source_url : Option String) (absolute_url : String) (v : ObiVersion)
    (j : List (String × Json)) : List (String × Json) :=
  if truthy source_url then
    match v with
    | .v1_1 => upsert (upsert j "source_url" (jsonOfOptStr source_url))
        "hosted_url" (Json.str (originHTTP ++ absolute_url))
    | .v2_0 => upsert (upsert j "sourceUrl" (jsonOfOptStr source_url))
        "hostedUrl" (Json.str (originHTTP ++ absolute_url))
  else j

/-- The ordered fixed fields opening Issuer.get_json. -/
def IssuerR.jsonBase (i : IssuerR) (v : ObiVersion) (use_canonical_id : Bool) :
    List (String × Json) :=
  let oc := get_obi_context v
  [("@context", Json.str oc.2),
   ("type", Json.str "Issuer"),
   ("id", Json.str (if use_canonical_id then i.jsonld_id
                    else add_obi_version_ifneeded i.jsonld_id oc.1)),
   ("name", Json.str i.name),
   ("url", jsonOfOptStr i.url),
   ("email", jsonOfOptStr i.email),
   ("description", jsonOfOptStr i.description),
   ("category", Json.str i.category),
   ("slug", Json.str i.entity_id)]

/-- Issuer.get_json without the final imported-extra passthrough (the body
up to and including the extensions loop): fixed fields, image value with
imported override, source block, extensions. -/
def IssuerR.get_json_core (i : IssuerR) (v : ObiVersion) (use_canonical_id : Bool) :
    List (String × Json) :=
  appendExtensions
    (sourceUrlStep i.source_url i.get_absolute_url (get_obi_context v).1
      (imageOverride i.original_json i.image_url_public
        (i.jsonBase v use_canonical_id ++ [("image", jsonOfOptStr i.image_url_public)])))
    i.extensions

/-- Issuer.get_json. -/
def IssuerR.get_json (i : IssuerR) (v : ObiVersion) (include_extra use_canonical_id : Bool) :
    List (String × Json) :=
  let json := i.get_json_core v use_canonical_id
  if include_extra then
    match i.get_filtered_json with
    | some extra => passthrough json extra
    | none => json
  else json

/-- BadgeClassAlignment row. -/
structure AlignmentR where
  target_name : String
  target_url : String
  target_description : Option String
  target_framework : Option String
  target_code : Option String

/-- BadgeClassAlignment.get_json (called with include_context=False). -/
def AlignmentR.get_json (a : AlignmentR) : List (String × Json) :=
  let json := [("targetName", Json.str a.target_name), ("targetUrl", Json.str a.target_url)]
  let json := if truthy a.target_description then
      json ++ [("targetDescription", jsonOfOptStr a.target_description)] else json
  let json := if truthy a.target_framework then
      json ++ [("targetFramework", jsonOfOptStr a.target_framework)] else json
  if truthy a.target_code then json ++ [("targetCode", jsonOfOptStr a.target_code)] else json

/-- BadgeClass: the fields consumed by the JSON builder, with the owning
issuer denormalized inline (cached_issuer). -/
structure BadgeClassR where
  entity_id : String
  name : String
  description : Option String
  image : Option String
  criteria_url : Option String
  criteria_text : Option String
  source_url : Option String
  original_json : Option (List (String × Json))
  extensions : List (String × Json)
  alignments : List AlignmentR
  tags : List String
  issuer : IssuerR

/-- reverse of badgeclass_json for this entity. -/
def BadgeClassR.get_absolute_url (b : BadgeClassR) : String := "/public/badges/" ++ b.entity_id

/-- BadgeClass.public_url. -/
def BadgeClassR.public_url (b : BadgeClassR) : String := originHTTP ++ b.get_absolute_url

/-- BadgeClass.jsonld_id. -/
def BadgeClassR.jsonld_id (b : BadgeClassR) : String :=
  match b.source_url with
  | some s => if s = "" then b.public_url else s
  | none => b.public_url

/-- BadgeClass.image_url(public=True). -/
def BadgeClassR.image_url_public (b : BadgeClassR) : String :=
  originHTTP ++ "/public/badges/" ++ b.entity_id ++ "/image"

/-- BadgeClass.description_nonnull. -/
def BadgeClassR.description_nonnull (b : BadgeClassR) : String := b.description.getD ""

/-- BadgeClass.get_criteria_url. -/
def BadgeClassR.get_criteria_url (b : BadgeClassR) : String :=
  match b.criteria_url with
  | some s => if s = "" then originHTTP ++ "/public/badges/" ++ b.entity_id ++ "/criteria" else s
  | none => originHTTP ++ "/public/badges/" ++ b.entity_id ++ "/criteria"

/-- The exclusion list of BadgeClass.get_filtered_json. -/
def badgeclassExcludedFields : List String :=
  ["@context", "id", "type", "name", "description", "image", "criteria", "issuer"]

/-- BadgeClass.get_filtered_json. -/
def BadgeClassR.get_filtered_json (b : BadgeClassR) : Option (List (String × Json)) :=
  filteredOriginal b.original_json badgeclassExcludedFields

/-- The ordered fixed fields opening BadgeClass.get_json. -/
def BadgeClassR.jsonBase (b : BadgeClassR) (v : ObiVersion) (use_canonical_id : Bool) :
    List (String × Json) :=
  let oc := get_obi_context v
  [("@context", Json.str oc.2),
   ("type", Json.str "BadgeClass"),
   ("id", Json.str (if use_canonical_id then b.jsonld_id
                    else add_obi_version_ifneeded b.jsonld_id oc.1)),
   ("name", Json.str b.name),
   ("description", Json.str b.description_nonnull),
   ("issuer", Json.str (if use_canonical_id then b.issuer.jsonld_id
                        else add_obi_version_ifneeded b.issuer.jsonld_id oc.1))]

/-- The image block of BadgeClass.get_json: only rendered when the badge
class has an image, with the imported-image override applied on top. -/
def BadgeClassR.imageStep (b : BadgeClassR) (j : List (String × Json)) : List (String × Json) :=
  if truthy b.image then
    imageOverride b.original_json (some b.image_url_public)
      (j ++ [("image", Json.str b.image_url_public)])
  else j

/-- The criteria block of BadgeClass.get_json: a bare URL in v1.1, an
object holding id and narrative in v2.0. -/
def BadgeClassR.criteriaStep (b : BadgeClassR) (v : ObiVersion) (j : List (String × Json)) :
    List (String × Json) :=
  match v with
  | .v1_1 => upsert j "criteria" (Json.str b.get_criteria_url)
  | .v2_0 =>
    upsert j "criteria" (Json.obj
      ((if truthy b.criteria_url then [("id", jsonOfOptStr b.criteria_url)] else []) ++
       (if truthy b.criteria_text then [("narrative", jsonOfOptStr b.criteria_text)] else [])))

/-- The alignment and tags block of BadgeClass.get_json (v2.0 only). -/
def BadgeClassR.alignmentTagsStep (b : BadgeClassR) (v : ObiVersion) (j : List (String × Json)) :
    List (String × Json) :=
  match v with
  | .v1_1 => j
  | .v2_0 =>
    upsert (upsert j "alignment" (Json.arr (b.alignments.map (fun a => Json.obj a.get_json))))
      "tags" (Json.arr (b.tags.map Json.str))

/-- BadgeClass.get_json without the final imported-extra passthrough. -/
def BadgeClassR.get_json_core (b : BadgeClassR) (v : ObiVersion) (use_canonical_id : Bool) :
    List (String × Json) :=
  appendExtensions
    (b.alignmentTagsStep (get_obi_context v).1
      (sourceUrlStep b.source_url b.get_absolute_url (get_obi_context v).1
        (b.criteriaStep (get_obi_context v).1
          (b.imageStep (b.jsonBase v use_canonical_id)))))
    b.extensions

/-- BadgeClass.get_json. -/
def BadgeClassR.get_json (b : BadgeClassR) (v : ObiVersion) (include_extra use_canonical_id : Bool) :
    List (String × Json) :=
  let json := b.get_json_core v use_canonical_id
  if include_extra then
    match b.get_filtered_json with
    | some extra => passthrough json extra
    | none => json
  else json

/-- Recipient type choices of BadgeInstance. -/
inductive RecipientType where
  | email : RecipientType
  | openBadgeId : RecipientType
  | telephone : RecipientType
  | url : RecipientType
deriving DecidableEq

/-- The stored string of a recipient type. -/
def RecipientType.token : RecipientType → String
  | .email => "email"
  | .openBadgeId => "openBadgeId"
  | .telephone => "telephone"
  | .url => "url"

/-- BadgeInstanceEvidence row. -/
structure EvidenceR where
  evidence_url : Option String
  narrative : Option String
deriving DecidableEq

/-- BadgeInstanceEvidence.get_json (called with include_context=False). -/
def EvidenceR.get_json (e : EvidenceR) : List (String × Json) :=
  let json := [("type", Json.str "Evidence")]
  let json := if truthy e.evidence_url then json ++ [("id", jsonOfOptStr e.evidence_url)] else json
  if truthy e.narrative then json ++ [("narrative", jsonOfOptStr e.narrative)] else json

/-- BadgeInstance: the fields consumed by the JSON builder and lifecycle
methods, with the owning badge class (and through it the issuer)
denormalized inline.  pk is none for a not-yet-persisted row; issued_on
and expires_at carry the already-ISO-formatted timestamps. -/
structure BadgeInstanceR where
  pk : Option Nat
  entity_id : String
  source_url : Option String
  recipient_identifier : String
  recipient_type : RecipientType
  hashed : Bool
  salt : Option String
  revoked : Bool
  revocation_reason : Option String
  narrative : Option String
  issued_on : String
  expires_at : Option String
  image : Option String
  evidence : List EvidenceR
  extensions : List (String × Json)
  original_json : Option (List (String × Json))
  badgeclass : BadgeClassR

/-- The denormalized issuer reference (BadgeInstance.issuer /
cached_issuer). -/
def BadgeInstanceR.issuer (b : BadgeInstanceR) : IssuerR := b.badgeclass.issuer

/-- reverse of badgeinstance_json for this entity. -/
def BadgeInstanceR.get_absolute_url (b : BadgeInstanceR) : String :=
  "/public/assertions/" ++ b.entity_id

/-- BadgeInstance.public_url. -/
def BadgeInstanceR.public_url (b : BadgeInstanceR) : String := originHTTP ++ b.get_absolute_url

/-- BadgeInstance.jsonld_id. -/
def BadgeInstanceR.jsonld_id (b : BadgeInstanceR) : String :=
  match b.source_url with
  | some s => if s = "" then b.public_url else s
  | none => b.public_url

/-- BadgeInstance.image_url(public=True). -/
def BadgeInstanceR.image_url_public (b : BadgeInstanceR) : String :=
  originHTTP ++ "/public/assertions/" ++ b.entity_id ++ "/image"

/-- BadgeInstance.evidence_url: the single evidence item URL when exactly
one item with a URL exists; the assertion public URL when several items
exist or the single item has no URL; None when no evidence exists. -/
def BadgeInstanceR.evidence_url (b : BadgeInstanceR) : Option String :=
  if b.evidence.length > 1 then some b.public_url
  else
    match b.evidence with
    | [e] => if truthy e.evidence_url then e.evidence_url else some b.public_url
    | _ => none

/-- The exclusion list of BadgeInstance.get_filtered_json. -/
def instanceExcludedFields : List String :=
  ["@context", "id", "type", "uid", "recipient", "badge", "issuedOn", "image", "evidence",
   "narrative", "revoked", "revocationReason", "verify", "verification"]

/-- Python str.endswith, computed on the character list. -/
def strEndsWith (s suffix : String) : Bool := suffix.data.isSuffixOf s.data

/-- Modelled from the spec: normalize a timezone-less timestamp to a
canonical ISO-8601 UTC string (issuer/utils.py parse_original_datetime is
not part of the excerpt); modelled as appending the UTC designator, which
keeps the property that the output differs from a non-Z-suffixed input. -/
def parse_original_datetime (s : String) : String := s ++ "Z"

/-- BadgeInstance.get_filtered_json: strip the canonical fields, then
normalize a truthy expires string that does not end in Z.  A non-string
truthy expires value would crash the Python date parser and is left
unchanged here; the theorems about this function restrict expires to
string values. -/
def BadgeInstanceR.get_filtered_json (b : BadgeInstanceR) : Option (List (String × Json)) :=
  match filteredOriginal b.original_json instanceExcludedFields with
  | none => none
  | some filtered =>
    match lookupKey filtered "expires" with
    | some (Json.str s) =>
      if !decide (s = "") && !strEndsWith s "Z" then
        some (upsert filtered "expires" (Json.str (parse_original_datetime s)))
      else some filtered
    | _ => some filtered

/-- Modelled from the spec: the sha256 hash string of (identifier + salt).
The digest itself is opaque (issuer/utils.py generate_sha256_hashstring is
not part of the excerpt), so the embedding is parametrized by the digest
function hashFn applied to the concatenation. -/
def generate_sha256_hashstring (hashFn : String → String) (identifier : String)
    (salt : Option String) : String :=
  hashFn (identifier ++ salt.getD "")

/-- The terminal rendering of a revoked assertion (the early return inside
BadgeInstance.get_json). -/
def BadgeInstanceR.revoked_json (b : BadgeInstanceR) (v : ObiVersion) (use_canonical_id : Bool) :
    List (String × Json) :=
  let oc := get_obi_context v
  [("@context", Json.str oc.2),
   ("type", Json.str "Assertion"),
   ("id", Json.str (if use_canonical_id then b.jsonld_id
                    else add_obi_version_ifneeded b.jsonld_id oc.1)),
   ("revoked", Json.bool b.revoked),
   ("revocationReason", Json.str (b.revocation_reason.getD ""))]

/-- The ordered fixed fields opening BadgeInstance.get_json; the id here
is always version-suffixed (only the revoked rendering consults
use_canonical_id). -/
def BadgeInstanceR.jsonBase (b : BadgeInstanceR) (v : ObiVersion) : List (String × Json) :=
  let oc := get_obi_context v
  [("@context", Json.str oc.2),
   ("type", Json.str "Assertion"),
   ("id", Json.str (add_obi_version_ifneeded b.jsonld_id oc.1)),
   ("badge", Json.str (add_obi_version_ifneeded b.badgeclass.jsonld_id oc.1))]

/-- The expansion block of BadgeInstance.get_json: replace the badge
reference with the full badge class document, and inside it the issuer
reference with the full issuer document when both flags are set. -/
def BadgeInstanceR.expandStep (b : BadgeInstanceR) (v : ObiVersion)
    (expand_badgeclass expand_issuer include_extra : Bool) (j : List (String × Json)) :
    List (String × Json) :=
  if expand_badgeclass then
    let badge := b.badgeclass.get_json v include_extra false
    let badge := if expand_issuer then
        upsert badge "issuer" (Json.obj (b.issuer.get_json v include_extra false))
      else badge
    upsert j "badge" (Json.obj badge)
  else j

/-- The verification block of BadgeInstance.get_json: v1.1 uid and hosted
verify object, v2.0 HostedBadge verification object. -/
def BadgeInstanceR.verifyStep (b : BadgeInstanceR) (v : ObiVersion) (use_canonical_id : Bool)
    (j : List (String × Json)) : List (String × Json) :=
  match v with
  | .v1_1 =>
    upsert (upsert j "uid" (Json.str b.entity_id)) "verify"
      (Json.obj [("url", Json.str (if use_canonical_id then b.public_url
                                   else add_obi_version_ifneeded b.public_url v)),
                 ("type", Json.str "hosted")])
  | .v2_0 => upsert j "verification" (Json.obj [("type", Json.str "HostedBadge")])

/-- The evidence block of BadgeInstance.get_json: a single URL in v1.1, an
array of evidence documents in v2.0; nothing when evidence_url is falsy. -/
def BadgeInstanceR.evidenceStep (b : BadgeInstanceR) (v : ObiVersion)
    (j : List (String × Json)) : List (String × Json) :=
  if truthy b.evidence_url then
    match v with
    | .v1_1 => upsert j "evidence" (jsonOfOptStr b.evidence_url)
    | .v2_0 => upsert j "evidence" (Json.arr (b.evidence.map (fun e => Json.obj e.get_json)))
  else j

/-- The narrative block of BadgeInstance.get_json (v2.0 only). -/
def BadgeInstanceR.narrativeStep (b : BadgeInstanceR) (v : ObiVersion)
    (j : List (String × Json)) : List (String × Json) :=
  if truthy b.narrative && v == ObiVersion.v2_0 then upsert j "narrative" (jsonOfOptStr b.narrative)
  else j

/-- The issuedOn field of BadgeInstance.get_json. -/
def BadgeInstanceR.issuedOnStep (b : BadgeInstanceR) (j : List (String × Json)) :
    List (String × Json) :=
  upsert j "issuedOn" (Json.str b.issued_on)

/-- The expires field of BadgeInstance.get_json (only when set). -/
def BadgeInstanceR.expiresStep (b : BadgeInstanceR) (j : List (String × Json)) :
    List (String × Json) :=
  match b.expires_at with
  | some e => upsert j "expires" (Json.str e)
  | none => j

/-- The recipient block of BadgeInstance.get_json: hashed identity with
the salt appended when truthy, or the plaintext identity without a salt
key. -/
def BadgeInstanceR.recipientStep (hashFn : String → String) (b : BadgeInstanceR)
    (j : List (String × Json)) : List (String × Json) :=
  if b.hashed then
    let recipient : List (String × Json) :=
      [("hashed", Json.bool true),
       ("type", Json.str b.recipient_type.token),
       ("identity", Json.str (generate_sha256_hashstring hashFn b.recipient_identifier b.salt))]
    let recipient := if truthy b.salt then recipient ++ [("salt", jsonOfOptStr b.salt)]
      else recipient
    upsert j "recipient" (Json.obj recipient)
  else
    upsert j "recipient"
      (Json.obj [("hashed", Json.bool false),
                 ("type", Json.str b.recipient_type.token),
                 ("identity", Json.str b.recipient_identifier)])

/-- The non-revoked body of BadgeInstance.get_json, up to and including
the extensions loop (everything except the revocation short-circuit and
the final imported-extra passthrough), as the composition of the blocks
in source order. -/
def BadgeInstanceR.get_json_unrevoked (hashFn : String → String) (b : BadgeInstanceR)
    (v : ObiVersion) (expand_badgeclass expand_issuer include_extra use_canonical_id : Bool) :
    List (String × Json) :=
  appendExtensions
    (b.recipientStep hashFn
      (b.expiresStep
        (b.issuedOnStep
          (b.narrativeStep (get_obi_context v).1
            (b.evidenceStep (get_obi_context v).1
              (sourceUrlStep b.source_url b.get_absolute_url (get_obi_context v).1
                (b.verifyStep (get_obi_context v).1 use_canonical_id
                  (b.expandStep (get_obi_context v).1 expand_badgeclass expand_issuer include_extra
                    (imageOverride b.original_json (some b.image_url_public)
                      (b.jsonBase v ++ [("image", Json.str b.image_url_public)]))))))))))
    b.extensions

/-- BadgeInstance.get_json.  The source builds a prefix, returns the
terminal revoked document early for revoked instances (bypassing the
passthrough), and otherwise finishes the document and appends the
imported extras; hoisting the side-effect-free revocation test to the top
is observably identical. -/
def BadgeInstanceR.get_json (hashFn : String → String) (b : BadgeInstanceR) (v : ObiVersion)
    (expand_badgeclass expand_issuer include_extra use_canonical_id : Bool) :
    List (String × Json) :=
  if b.revoked then b.revoked_json v use_canonical_id
  else
    let json := b.get_json_unrevoked hashFn v expand_badgeclass expand_issuer include_extra
      use_canonical_id
    if include_extra then
      match b.get_filtered_json with
      | some extra => passthrough json extra
      | none => json
    else json

/-- Errors raised by the lifecycle methods (all django ValidationError in
the source, distinguished here by their message). -/
inductive ModelError where
  | blacklisted : ModelError
  | alreadyRevoked : ModelError
  | missingReason : ModelError
deriving DecidableEq

/-- Ambient inputs of BadgeInstance.save: the recipient blacklist query
and the fresh values drawn on creation (uuid4 salt, allocated primary
key). -/
structure SaveCtx where
  blacklisted : RecipientType → String → Bool
  freshSalt : String
  freshPk : Nat

/-- BadgeInstance.save.  On first save (pk is None): reject blacklisted
recipients, generate the per-assertion salt, bake and store the assertion
image when none exists yet (entity-id generation and email-variant
bookkeeping are identity/cache concerns with no bearing on the modelled
fields and are omitted).  On every save, a non-revoked instance has its
revocation_reason cleared. -/
def BadgeInstanceR.save (ctx : SaveCtx) (b : BadgeInstanceR) : Except ModelError BadgeInstanceR :=
  if b.pk.isNone then
    if ctx.blacklisted b.recipient_type b.recipient_identifier then .error .blacklisted
    else
      let b := { b with salt := some ctx.freshSalt }
      let b := { b with image := if truthy b.image then b.image
                        else some ("assertion-" ++ b.entity_id) }
      let b := { b with revocation_reason := if b.revoked then b.revocation_reason else none }
      .ok { b with pk := some ctx.freshPk }
  else
    .ok { b with revocation_reason := if b.revoked then b.revocation_reason else none }

/-- BadgeInstance.revoke: reject an already-revoked instance, reject an
empty reason, otherwise set the revocation state, delete the live image
reference and save.  An error leaves the instance unchanged (the caller
keeps the old record). -/
def BadgeInstanceR.revoke (ctx : SaveCtx) (b : BadgeInstanceR) (revocation_reason : String) :
    Except ModelError BadgeInstanceR :=
  if b.revoked then .error .alreadyRevoked
  else if revocation_reason = "" then .error .missingReason
  else
    BadgeInstanceR.save ctx
      { b with revoked := true, revocation_reason := some revocation_reason, image := none }

/-- The recipient identity records visible to BadgeInstance.pending:
verified flags keyed by email (CachedEmailAddress) and by other
identifiers (UserRecipientIdentifier). -/
structure IdentityWorld where
  emails : List (String × Bool)
  identifiers : List (String × Bool)

/-- The identity record lookup inside BadgeInstance.pending: the verified
flag of the record matching the recipient identifier, none when no record
exists. -/
def BadgeInstanceR.identityRecord (w : IdentityWorld) (b : BadgeInstanceR) : Option Bool :=
  if b.recipient_type = .email then
    (w.emails.find? (fun p => p.1 == b.recipient_identifier)).map Prod.snd
  else
    (w.identifiers.find? (fun p => p.1 == b.recipient_identifier)).map Prod.snd

/-- BadgeInstance.pending: no matching identity record means not pending;
a locally issued assertion (no source_url) is never pending; otherwise
pending iff the record is unverified. -/
def BadgeInstanceR.pending (w : IdentityWorld) (b : BadgeInstanceR) : Bool :=
  match b.identityRecord w with
  | none => false
  | some verified => if !(truthy b.source_url) then false else !verified

/-- A persisted child-row table: rows carry their primary key, and nextPk
is the next key the database would allocate. -/
structure Table (α : Type) where
  rows : List (Nat × α)
  nextPk : Nat
deriving DecidableEq

/-- Insert a new row (INSERT allocates the next primary key). -/
def Table.create {α : Type} (t : Table α) (a : α) : Table α :=
  ⟨t.rows ++ [(t.nextPk, a)], t.nextPk + 1⟩

/-- Delete the row with the given primary key. -/
def Table.deleteRow {α : Type} (t : Table α) (pk : Nat) : Table α :=
  ⟨t.rows.filter (fun p => p.1 ≠ pk), t.nextPk⟩

/-- Update the row with the given primary key in place. -/
def Table.updateRow {α : Type} (t : Table α) (pk : Nat) (f : α → α) : Table α :=
  ⟨t.rows.map (fun p => if p.1 = pk then (p.1, f p.2) else p), t.nextPk⟩

/-- Database well-formedness: primary keys are unique and below the
allocation counter. -/
def Table.WF {α : Type} (t : Table α) : Prop :=
  (t.rows.map Prod.fst).Nodup ∧ ∀ p ∈ t.rows, p.1 < t.nextPk

/-- The shared diff-and-reconcile shape of the tag, alignment and evidence
setters: compute the identity keys of the existing rows once, run the
add-missing loop (addFn is the per-descriptor creation step), then delete
every row whose identity key is absent from the desired list. -/
def syncRows {α δ : Type} (kRow : α → String) (kDesc : δ → String)
    (addFn : Table α → δ → Table α) (t : Table α) (value : List δ) : Table α :=
  let existing := t.rows.map (fun p => kRow p.2)
  let t1 := value.foldl (fun st d => if kDesc d ∈ existing then st else addFn st d) t
  ⟨t1.rows.filter (fun p => kRow p.2 ∈ value.map kDesc), t1.nextPk⟩

/-- BadgeClass.tag_items setter: identity is the tag name itself. -/
def tagSync (t : Table String) (value : List String) : Table String :=
  syncRows id id (fun st d => st.create d) t value

/-- The alignment identity string (join of field=value over the five
semantic fields; a missing optional field prints as None, as in Python). -/
def alignmentIdentity (a : AlignmentR) : String :=
  "target_name=" ++ a.target_name ++
  "&target_url=" ++ a.target_url ++
  "&target_description=" ++ a.target_description.getD "None" ++
  "&target_framework=" ++ a.target_framework.getD "None" ++
  "&target_code=" ++ a.target_code.getD "None"

/-- BadgeClass.alignment_items setter: descriptors carry the same five
fields as rows and missing rows are created outright. -/
def alignmentSync (t : Table AlignmentR) (value : List AlignmentR) : Table AlignmentR :=
  syncRows alignmentIdentity alignmentIdentity (fun st d => st.create d) t value

/-- The evidence identity key narrative-url with falsy fields rendered
empty. -/
def evidenceKey (narrative url : Option String) : String :=
  narrative.getD "" ++ "-" ++ url.getD ""

/-- BadgeInstance.evidence_items setter: missing rows are added through
get_or_create on the exact field values, so a row identical to the
descriptor suppresses the insert. -/
def evidenceSync (t : Table EvidenceR) (value : List EvidenceR) : Table EvidenceR :=
  syncRows (fun e => evidenceKey e.narrative e.evidence_url)
    (fun e => evidenceKey e.narrative e.evidence_url)
    (fun st d => if st.rows.any (fun p => p.2 == d) then st else st.create d) t value

/-- Extension rows: a name and the stored extension JSON. -/
structure ExtensionRow where
  name : String
  original_json : Json

/-- BaseOpenBadgeObjectModel.extension_items setter: for each desired
(name, json) pair, get_or_create the row by name (updating the stored
JSON in place when the row exists) and remember its primary key; finally
delete every row whose primary key was not touched.  The desired value is
a Python dict, i.e. a list of pairs with unique names. -/
def extStep (acc : Table ExtensionRow × List Nat) (kv : String × Json) :
    Table ExtensionRow × List Nat :=
  match acc.1.rows.find? (fun p => p.2.name == kv.1) with
  | some p => (acc.1.updateRow p.1 (fun e => { e with original_json := kv.2 }), acc.2 ++ [p.1])
  | none => (acc.1.create ⟨kv.1, kv.2⟩, acc.2 ++ [acc.1.nextPk])

def extensionSync (t : Table ExtensionRow) (value : List (String × Json)) : Table ExtensionRow :=
  let res := value.foldl extStep (t, [])
  ⟨res.1.rows.filter (fun p => p.1 ∈ res.2), res.1.nextPk⟩

/-- Issuer staff roles. -/
inductive StaffRole where
  | owner : StaffRole
  | editor : StaffRole
  | staff : StaffRole
deriving DecidableEq

/-- An IssuerStaff row (and equally a desired staff descriptor): a user
reference and a role. -/
structure StaffRow where
  user : Nat
  role : StaffRole
deriving DecidableEq

/-- The live owner count len(self.owners). -/
def ownersCount (t : Table StaffRow) : Nat :=
  (t.rows.filter (fun p => p.2.role == StaffRole.owner)).length

/-- The add-missing half of the staff_items setter: for each descriptor
whose user was not on staff when the setter started, get_or_create the
row by user (which can only find a row created earlier in this same loop)
and update its role when it already existed. -/
def staffAddStep (existingUsers : List Nat) (st : Table StaffRow) (d : StaffRow) :
    Table StaffRow :=
  if d.user ∈ existingUsers then st
  else
    match st.rows.find? (fun p => p.2.user == d.user) with
    | some p => st.updateRow p.1 (fun r => { r with role := d.role })
    | none => st.create d

def staffAddPhase (t : Table StaffRow) (value : List StaffRow) : Table StaffRow :=
  value.foldl (staffAddStep (t.rows.map (fun p => p.2.user))) t

/-- The remove-old half of the staff_items setter: walk the staff rows
and delete every row whose user is absent from the desired list — unless
it is an owner and the live owner count is not above one (never remove the
only owner). -/
def staffRemoveStep (valueUsers : List Nat) (st : Table StaffRow) (p : Nat × StaffRow) :
    Table StaffRow :=
  if p.2.user ∈ valueUsers then st
  else if p.2.role ≠ StaffRole.owner ∨ 1 < ownersCount st then st.deleteRow p.1
  else st

def staffRemovePhase (t : Table StaffRow) (valueUsers : List Nat) : Table StaffRow :=
  t.rows.foldl (staffRemoveStep valueUsers) t

/-- Issuer.staff_items setter. -/
def staffSync (t : Table StaffRow) (value : List StaffRow) : Table StaffRow :=
  staffRemovePhase (staffAddPhase t value) (value.map (fun d => d.user))

/-- The staff-relevant state of an Issuer. -/
structure IssuerState where
  staff : Table StaffRow
  created_by : Option Nat

/-- Issuer.save, staff part: after the base save, create an owner staff
record for created_by when no owner staff record exists (geocoding and the
admin notification touch no staff state and are omitted). -/
def IssuerState.save (s : IssuerState) : IssuerState :=
  if ownersCount s.staff < 1 then
    match s.created_by with
    | some u => { s with staff := s.staff.create ⟨u, StaffRole.owner⟩ }
    | none => s
  else s

/-- The blob storage visible to rebake: the set of stored file names. -/
structure StorageSt where
  files : List String
deriving DecidableEq

/-- default_storage.save: store under the requested name, or under a fresh
alternative when the name is taken (Django picks an available variant;
modelled by a name strictly longer than every stored name). -/
def StorageSt.saveFile (st : StorageSt) (name : String) : StorageSt × String :=
  let n := if name ∈ st.files then name ++ "-" ++ String.join st.files ++ "-" else name
  (⟨st.files ++ [n]⟩, n)

/-- default_storage.delete. -/
def StorageSt.deleteFile (st : StorageSt) (name : String) : StorageSt :=
  ⟨st.files.filter (fun f => f ≠ name)⟩

/-- Modelled from the spec: the filename for the rebaked image
(issuer/utils.py generate_rebaked_filename is not part of the excerpt);
the exact pattern is irrelevant to the claims, only that it derives from
the old name. -/
def generate_rebaked_filename (oldName _badgeclassImageName : String) : String :=
  oldName ++ "-rebaked"

/-- The observable states of BadgeInstance.rebake(save=True), as (stored
files, persisted image reference) pairs: initial; after storing the newly
baked image; after deleting the old file; after save() persists the new
reference.  With save=False the final persisting step never happens. -/
def BadgeInstanceR.rebakeTrace (st : StorageSt) (b : BadgeInstanceR) (save : Bool) :
    List (StorageSt × Option String) :=
  let oldName := b.image.getD ""
  let s1 := st.saveFile (generate_rebaked_filename oldName (b.badgeclass.image.getD ""))
  let st2 := s1.1.deleteFile oldName
  [(st, b.image), (s1.1, b.image), (st2, b.image)] ++
    (if save then [(st2, some s1.2)] else [])

/-- A minimal locally-authored issuer fixture. -/
def sampleIssuer : IssuerR :=
  { entity_id := "iss1"
    name := "Sample Issuer"
    url := some "https://issuer.example"
    email := some "contact@issuer.example"
    description := some "an issuer"
    category := "n/a"
    image := some "uploads/issuers/iss1.png"
    source_url := none
    original_json := none
    extensions := [] }

/-- A minimal badge class fixture owned by sampleIssuer. -/
def sampleBadgeClass : BadgeClassR :=
  { entity_id := "bc1"
    name := "Sample Badge"
    description := some "a badge"
    image := some "uploads/badges/bc1.png"
    criteria_url := none
    criteria_text := some "do the thing"
    source_url := none
    original_json := none
    extensions := []
    alignments := []
    tags := []
    issuer := sampleIssuer }

/-- A minimal persisted, non-revoked assertion fixture. -/
def sampleInstance : BadgeInstanceR :=
  { pk := some 1
    entity_id := "ai1"
    source_url := none
    recipient_identifier := "a@example.com"
    recipient_type := RecipientType.email
    hashed := true
    salt := some "s4lt"
    revoked := false
    revocation_reason := none
    narrative := none
    issued_on := "2024-01-15T00:00:00+00:00"
    expires_at := none
    image := some "uploads/badges/assertion-ai1.png"
    evidence := []
    extensions := []
    original_json := none
    badgeclass := sampleBadgeClass }

theorem hasKey_cons {p : String × Json} {j : List (String × Json)} {k : String} :
    hasKey (p :: j) k = (p.1 == k || hasKey j k) := by
  simp [hasKey]

theorem hasKey_iff {j : List (String × Json)} {k : String} :
    hasKey j k = true ↔ k ∈ j.map Prod.fst := by
  induction j with
  | nil => simp [hasKey]
  | cons p t ih =>
    rw [hasKey_cons]
    simp only [Bool.or_eq_true, beq_iff_eq, List.map_cons, List.mem_cons]
    exact or_congr eq_comm ih

theorem hasKey_append {j l : List (String × Json)} {k : String} :
    hasKey (j ++ l) k = (hasKey j k || hasKey l k) := by
  simp [hasKey, List.any_append]

theorem find?_eq_none_of_hasKey_false {j : List (String × Json)} {k : String}
    (h : hasKey j k = false) : j.find? (fun p => p.1 == k) = none := by
  induction j with
  | nil => rfl
  | cons p t ih =>
    rw [hasKey_cons, Bool.or_eq_false_iff] at h
    rw [List.find?_cons_of_neg _ (by simp [h.1]), ih h.2]

theorem find?_hasKey_true {j : List (String × Json)} {k : String}
    (h : hasKey j k = true) : ∃ q, j.find? (fun p => p.1 == k) = some q ∧ q.1 = k := by
  induction j with
  | nil => simp [hasKey] at h
  | cons p t ih =>
    by_cases hp : p.1 = k
    · exact ⟨p, List.find?_cons_of_pos _ (by simp [hp]), hp⟩
    · rw [hasKey_cons, Bool.or_eq_true] at h
      rcases h with h | h
      · simp [hp] at h
      · obtain ⟨q, hq, hqk⟩ := ih h
        exact ⟨q, by rw [List.find?_cons_of_neg _ (by simp [hp]), hq], hqk⟩

theorem lookupKey_append_left {j l : List (String × Json)} {k : String}
    (h : hasKey j k = true) : lookupKey (j ++ l) k = lookupKey j k := by
  obtain ⟨q, hq, _⟩ := find?_hasKey_true h
  simp [lookupKey, List.find?_append, hq]

theorem lookupKey_append_right {j l : List (String × Json)} {k : String}
    (h : hasKey j k = false) : lookupKey (j ++ l) k = lookupKey l k := by
  simp [lookupKey, List.find?_append, find?_eq_none_of_hasKey_false h]

theorem upsert_of_hasKey_false {j : List (String × Json)} {k : String} {v : Json}
    (h : hasKey j k = false) : upsert j k v = j ++ [(k, v)] := by
  simp [upsert, h]

theorem upsert_of_hasKey_true {j : List (String × Json)} {k : String} {v : Json}
    (h : hasKey j k = true) :
    upsert j k v = j.map (fun p => if p.1 == k then (p.1, v) else p) := by
  simp [upsert, h]

theorem lookupKey_upsert_self {j : List (String × Json)} {k : String} {v : Json} :
    lookupKey (upsert j k v) k = some v := by
  by_cases h : hasKey j k = true
  · rw [upsert_of_hasKey_true h]
    obtain ⟨q, hq, hqk⟩ := find?_hasKey_true h
    have hpred : ((fun p : String × Json => p.1 == k) ∘
        (fun p : String × Json => if p.1 == k then (p.1, v) else p)) =
        (fun p : String × Json => p.1 == k) := by
      funext q
      by_cases hqq : q.1 = k <;> simp [hqq]
    rw [lookupKey, List.find?_map, hpred, hq]
    simp [hqk]
  · have h' : hasKey j k = false := by simpa using h
    rw [upsert_of_hasKey_false h', lookupKey_append_right h']
    simp [lookupKey]

theorem lookupKey_upsert_ne {j : List (String × Json)} {k k' : String} {v : Json}
    (h : k' ≠ k) : lookupKey (upsert j k v) k' = lookupKey j k' := by
  by_cases hk : hasKey j k = true
  · rw [upsert_of_hasKey_true hk]
    have hpred : ((fun p : String × Json => p.1 == k') ∘
        (fun p : String × Json => if p.1 == k then (p.1, v) else p)) =
        (fun p : String × Json => p.1 == k') := by
      funext q
      by_cases hqq : q.1 = k <;> simp [hqq]
    rw [lookupKey, List.find?_map, hpred]
    rcases hf : j.find? (fun p => p.1 == k') with _ | q
    · simp [lookupKey, hf]
    · have hqk : q.1 = k' := by simpa using List.find?_some hf
      rw [lookupKey, hf]
      simp only [Option.map_some']
      rw [if_neg (by rw [hqk]; simpa using h)]
  · have h' : hasKey j k = false := by simpa using hk
    rw [upsert_of_hasKey_false h']
    by_cases hk' : hasKey j k' = true
    · exact lookupKey_append_left hk'
    · have hkf : hasKey j k' = false := by simpa using hk'
      rw [lookupKey_append_right hkf]
      have hke : (k == k') = false := by simpa using Ne.symm h
      simp [lookupKey, List.find?, hke, find?_eq_none_of_hasKey_false hkf]

theorem hasKey_upsert_self {j : List (String × Json)} {k : String} {v : Json} :
    hasKey (upsert j k v) k = true := by
  by_cases h : hasKey j k = true
  · rw [upsert_of_hasKey_true h]
    rw [hasKey_iff] at h ⊢
    obtain ⟨p, hp, hpk⟩ := List.mem_map.mp h
    refine List.mem_map.mpr ⟨(if p.1 == k then (p.1, v) else p), List.mem_map_of_mem _ hp, ?_⟩
    rw [if_pos (by simp [hpk])]
    exact hpk
  · have h' : hasKey j k = false := by simpa using h
    rw [upsert_of_hasKey_false h', hasKey_append]
    simp [hasKey]

theorem hasKey_upsert_ne {j : List (String × Json)} {k k' : String} {v : Json}
    (h : k' ≠ k) : hasKey (upsert j k v) k' = hasKey j k' := by
  by_cases hk : hasKey j k = true
  · rw [upsert_of_hasKey_true hk]
    simp only [hasKey, List.any_map]
    congr 1
    funext q
    by_cases hq : q.1 = k <;> simp [Function.comp, hq]
  · have h' : hasKey j k = false := by simpa using hk
    rw [upsert_of_hasKey_false h', hasKey_append]
    have : hasKey [(k, v)] k' = false := by simp [hasKey, Ne.symm h]
    simp [this]

theorem lookupKey_appendExtensions {j exts : List (String × Json)} {k : String}
    (h : k ∉ exts.map Prod.fst) : lookupKey (appendExtensions j exts) k = lookupKey j k := by
  induction exts generalizing j with
  | nil => rfl
  | cons e t ih =>
    simp only [List.map_cons, List.mem_cons, not_or] at h
    show lookupKey (appendExtensions (upsert j e.1 e.2) t) k = lookupKey j k
    rw [ih h.2, lookupKey_upsert_ne h.1]

theorem hasKey_appendExtensions {j exts : List (String × Json)} {k : String}
    (h : k ∉ exts.map Prod.fst) : hasKey (appendExtensions j exts) k = hasKey j k := by
  induction exts generalizing j with
  | nil => rfl
  | cons e t ih =>
    simp only [List.map_cons, List.mem_cons, not_or] at h
    show hasKey (appendExtensions (upsert j e.1 e.2) t) k = hasKey j k
    rw [ih h.2, hasKey_upsert_ne h.1]

theorem passthrough_tail {extra : List (String × Json)} :
    ∀ j, ∃ tail, passthrough j extra = j ++ tail ∧ ∀ kv ∈ tail, kv ∈ extra := by
  induction extra with
  | nil => intro j; exact ⟨[], by simp [passthrough], by simp⟩
  | cons kv rest ih =>
    intro j
    show ∃ tail, passthrough (if hasKey j kv.1 then j else j ++ [kv]) rest = j ++ tail ∧ _
    split
    · obtain ⟨tail, h1, h2⟩ := ih j
      exact ⟨tail, h1, fun x hx => List.mem_cons_of_mem _ (h2 x hx)⟩
    · obtain ⟨tail, h1, h2⟩ := ih (j ++ [kv])
      refine ⟨kv :: tail, by simpa using h1, ?_⟩
      intro x hx
      rcases List.mem_cons.mp hx with rfl | hx
      · exact List.mem_cons_self _ _
      · exact List.mem_cons_of_mem _ (h2 x hx)

theorem hasKey_passthrough_false {j extra : List (String × Json)} {k : String}
    (hj : hasKey j k = false) (he : k ∉ extra.map Prod.fst) :
    hasKey (passthrough j extra) k = false := by
  obtain ⟨tail, h1, h2⟩ := @passthrough_tail extra j
  rw [h1, hasKey_append, hj]
  by_contra hc
  simp only [Bool.false_or, Bool.not_eq_false] at hc
  rw [hasKey_iff] at hc
  obtain ⟨p, hp, hpk⟩ := List.mem_map.mp hc
  exact he (hpk ▸ List.mem_map_of_mem Prod.fst (h2 p hp))

theorem lookupKey_passthrough {j extra : List (String × Json)} {k : String}
    (hj : hasKey j k = true) : lookupKey (passthrough j extra) k = lookupKey j k := by
  obtain ⟨tail, h1, _⟩ := @passthrough_tail extra j
  rw [h1, lookupKey_append_left hj]

theorem passthrough_eq_append_filter {extra : List (String × Json)}
    (h : (extra.map Prod.fst).Nodup) :
    ∀ j, passthrough j extra = j ++ extra.filter (fun kv => !hasKey j kv.1) := by
  induction extra with
  | nil => intro j; simp [passthrough]
  | cons kv rest ih =>
    intro j
    simp only [List.map_cons, List.nodup_cons] at h
    show (passthrough (if hasKey j kv.1 then j else j ++ [kv]) rest) = _
    rw [List.filter_cons]
    split
    · rename_i hk
      rw [ih h.2 j]
      simp [hk]
    · rename_i hk
      have hkv : hasKey j kv.1 = false := by simpa using hk
      rw [ih h.2 (j ++ [kv])]
      have hfilter : rest.filter (fun x => !hasKey (j ++ [kv]) x.1) =
          rest.filter (fun x => !hasKey j x.1) := by
        refine List.filter_congr ?_
        intro x hx
        have hne : x.1 ≠ kv.1 := by
          intro hc
          exact h.1 (hc ▸ List.mem_map_of_mem Prod.fst hx)
        rw [hasKey_append]
        have : hasKey [kv] x.1 = false := by
          simp only [hasKey, List.any_cons, List.any_nil, Bool.or_false]
          simpa using fun hc => hne hc.symm
        simp [this]
      rw [hfilter, hkv]
      simp

/-- A revoked variant of the sample assertion. -/
def revokedSample : BadgeInstanceR :=
  { sampleInstance with revoked := true, revocation_reason := some "bad" }

/-- C1: for every revoked BadgeInstance, every supported version and every
combination of the expansion flags expand_badgeclass / expand_issuer /
include_extra, get_json returns a document whose keys are exactly
@context, type, id, revoked, revocationReason, with revoked rendered as
true, and the document does not depend on the expansion flags. -/
theorem revoked_rendering_terminal (hashFn : String → String) (b : BadgeInstanceR)
    (v : ObiVersion) (eb ei ie eb' ei' ie' canon : Bool) (h : b.revoked = true) :
    (b.get_json hashFn v eb ei ie canon).map Prod.fst =
      ["@context", "type", "id", "revoked", "revocationReason"] ∧
    lookupKey (b.get_json hashFn v eb ei ie canon) "revoked" = some (Json.bool true) ∧
    b.get_json hashFn v eb ei ie canon = b.get_json hashFn v eb' ei' ie' canon := by
  refine ⟨?_, ?_, ?_⟩ <;> simp [BadgeInstanceR.get_json, h, BadgeInstanceR.revoked_json, lookupKey]

/-- Witness for C1 at a concrete revoked assertion. -/
theorem revoked_rendering_terminal_witness :
    (BadgeInstanceR.get_json id revokedSample ObiVersion.v1_1 true true true false).map Prod.fst =
      ["@context", "type", "id", "revoked", "revocationReason"] ∧
    lookupKey (BadgeInstanceR.get_json id revokedSample ObiVersion.v1_1 true true true false)
      "revoked" = some (Json.bool true) ∧
    BadgeInstanceR.get_json id revokedSample ObiVersion.v1_1 true true true false =
      BadgeInstanceR.get_json id revokedSample ObiVersion.v1_1 false false false false :=
  revoked_rendering_terminal id revokedSample ObiVersion.v1_1 true true true false false false
    false rfl

/-- C3: revoke on an already-revoked assertion fails with the
already-revoked error and an empty reason fails with the missing-reason
error (both failures return no modified record, so the instance state is
unchanged); otherwise revoke succeeds, setting revoked, storing the
reason and deleting the live image reference; and every later revoke on
the revoked result fails. -/
theorem revoke_lifecycle (ctx : SaveCtx) (b : BadgeInstanceR) (reason : String) :
    (b.revoked = true → b.revoke ctx reason = Except.error ModelError.alreadyRevoked) ∧
    (b.revoked = false → reason = "" → b.revoke ctx reason = Except.error ModelError.missingReason) ∧
    (b.revoked = false → reason ≠ "" → ∀ k, b.pk = some k →
      b.revoke ctx reason = Except.ok
        { b with revoked := true, revocation_reason := some reason, image := none }) ∧
    (∀ b2, b.revoke ctx reason = Except.ok b2 →
      ∀ ctx2 r2, b2.revoke ctx2 r2 = Except.error ModelError.alreadyRevoked) := by
  refine ⟨?_, ?_, ?_, ?_⟩
  · intro h
    simp [BadgeInstanceR.revoke, h]
  · intro h hr
    simp [BadgeInstanceR.revoke, h, hr]
  · intro h hr k hk
    simp [BadgeInstanceR.revoke, h, hr, BadgeInstanceR.save, hk]
  · intro b2 hok ctx2 r2
    have hrev : b2.revoked = true := by
      by_cases h : b.revoked = true
      · simp [BadgeInstanceR.revoke, h] at hok
      · simp only [BadgeInstanceR.revoke, h, if_neg, Bool.false_eq_true] at hok
        rw [if_neg not_false] at hok
        split at hok
        · simp at hok
        · simp only [BadgeInstanceR.save] at hok
          split at hok
          · split at hok
            · simp at hok
            · simp only [Except.ok.injEq] at hok
              rw [← hok]
          · simp only [Except.ok.injEq] at hok
            rw [← hok]
    simp [BadgeInstanceR.revoke, hrev]

/-- Witness for C3 at concrete instances: failure on the revoked sample,
failure on an empty reason, success on the live sample. -/
theorem revoke_lifecycle_witness :
    BadgeInstanceR.revoke ⟨fun _ _ => false, "u", 9⟩ revokedSample "bad" =
      Except.error ModelError.alreadyRevoked ∧
    BadgeInstanceR.revoke ⟨fun _ _ => false, "u", 9⟩ sampleInstance "" =
      Except.error ModelError.missingReason ∧
    BadgeInstanceR.revoke ⟨fun _ _ => false, "u", 9⟩ sampleInstance "bad" =
      Except.ok { sampleInstance with revoked := true, revocation_reason := some "bad", image := none } :=
  ⟨(revoke_lifecycle ⟨fun _ _ => false, "u", 9⟩ revokedSample "bad").1 rfl,
   (revoke_lifecycle ⟨fun _ _ => false, "u", 9⟩ sampleInstance "").2.1 rfl rfl,
   (revoke_lifecycle ⟨fun _ _ => false, "u", 9⟩ sampleInstance "bad").2.2.1 rfl
     (by decide) 1 rfl⟩

/-- C8: pending is true iff the assertion has a truthy source_url and a
matching identity record exists unverified; when no matching record
exists, pending is false regardless of provenance. -/
theorem pending_characterization (w : IdentityWorld) (b : BadgeInstanceR) :
    (b.pending w = true ↔ truthy b.source_url = true ∧ b.identityRecord w = some false) ∧
    (b.identityRecord w = none → b.pending w = false) := by
  constructor
  · rw [BadgeInstanceR.pending]
    rcases hr : b.identityRecord w with _ | verified
    · simp
    · cases verified <;> cases ht : truthy b.source_url <;> simp [ht]
  · intro h
    rw [BadgeInstanceR.pending, h]

/-- Witness for C8 at a concrete world and assertion: an imported
assertion whose email record exists unverified is pending, and one with
no record is not. -/
theorem pending_characterization_witness :
    (BadgeInstanceR.pending ⟨[("a@example.com", false)], []⟩
        { sampleInstance with source_url := some "https://other.example/a1" } = true ↔
      truthy ({ sampleInstance with
          source_url := some "https://other.example/a1" } : BadgeInstanceR).source_url = true ∧
      BadgeInstanceR.identityRecord ⟨[("a@example.com", false)], []⟩
        { sampleInstance with source_url := some "https://other.example/a1" } = some false) ∧
    (BadgeInstanceR.identityRecord ⟨[], []⟩ sampleInstance = none →
      BadgeInstanceR.pending ⟨[], []⟩ sampleInstance = false) :=
  ⟨(pending_characterization ⟨[("a@example.com", false)], []⟩
      { sampleInstance with source_url := some "https://other.example/a1" }).1,
   (pending_characterization ⟨[], []⟩ sampleInstance).2⟩

theorem lookupKey_cons_self {k : String} {v : Json} {j : List (String × Json)} :
    lookupKey ((k, v) :: j) k = some v := by
  rw [lookupKey, List.find?_cons_of_pos _ (by simp)]
  rfl

theorem lookupKey_cons_ne {k k' : String} {v : Json} {j : List (String × Json)}
    (h : k' ≠ k) : lookupKey ((k, v) :: j) k' = lookupKey j k' := by
  rw [lookupKey, List.find?_cons_of_neg _ (by simpa using Ne.symm h)]
  rfl

theorem hasKey_of_lookupKey_some {j : List (String × Json)} {k : String} {v : Json}
    (h : lookupKey j k = some v) : hasKey j k = true := by
  by_contra hc
  have hf : hasKey j k = false := by simpa using hc
  rw [lookupKey, find?_eq_none_of_hasKey_false hf] at h
  simp at h

theorem lookupKey_imageOverride_ne {orig : Option (List (String × Json))} {iu : Option String}
    {j : List (String × Json)} {k : String} (h : k ≠ "image") :
    lookupKey (imageOverride orig iu j) k = lookupKey j k := by
  unfold imageOverride
  split
  · split
    · rw [lookupKey_upsert_ne h]
    · rfl
  · rfl

theorem hasKey_imageOverride_ne {orig : Option (List (String × Json))} {iu : Option String}
    {j : List (String × Json)} {k : String} (h : k ≠ "image") :
    hasKey (imageOverride orig iu j) k = hasKey j k := by
  unfold imageOverride
  split
  · split
    · rw [hasKey_upsert_ne h]
    · rfl
  · rfl

theorem lookupKey_sourceUrlStep_ne {su : Option String} {au : String} {v : ObiVersion}
    {j : List (String × Json)} {k : String} (h1 : k ≠ "source_url") (h2 : k ≠ "hosted_url")
    (h3 : k ≠ "sourceUrl") (h4 : k ≠ "hostedUrl") :
    lookupKey (sourceUrlStep su au v j) k = lookupKey j k := by
  unfold sourceUrlStep
  split
  · cases v
    · rw [lookupKey_upsert_ne h2, lookupKey_upsert_ne h1]
    · rw [lookupKey_upsert_ne h4, lookupKey_upsert_ne h3]
  · rfl

theorem hasKey_sourceUrlStep_ne {su : Option String} {au : String} {v : ObiVersion}
    {j : List (String × Json)} {k : String} (h1 : k ≠ "source_url") (h2 : k ≠ "hosted_url")
    (h3 : k ≠ "sourceUrl") (h4 : k ≠ "hostedUrl") :
    hasKey (sourceUrlStep su au v j) k = hasKey j k := by
  unfold sourceUrlStep
  split
  · cases v
    · rw [hasKey_upsert_ne h2, hasKey_upsert_ne h1]
    · rw [hasKey_upsert_ne h4, hasKey_upsert_ne h3]
  · rfl

theorem lookupKey_expandStep_ne {b : BadgeInstanceR} {v : ObiVersion} {eb ei ie : Bool}
    {j : List (String × Json)} {k : String} (h : k ≠ "badge") :
    lookupKey (b.expandStep v eb ei ie j) k = lookupKey j k := by
  unfold BadgeInstanceR.expandStep
  split
  · rw [lookupKey_upsert_ne h]
  · rfl

theorem hasKey_expandStep_ne {b : BadgeInstanceR} {v : ObiVersion} {eb ei ie : Bool}
    {j : List (String × Json)} {k : String} (h : k ≠ "badge") :
    hasKey (b.expandStep v eb ei ie j) k = hasKey j k := by
  unfold BadgeInstanceR.expandStep
  split
  · rw [hasKey_upsert_ne h]
  · rfl

theorem lookupKey_verifyStep_ne {b : BadgeInstanceR} {v : ObiVersion} {canon : Bool}
    {j : List (String × Json)} {k : String} (h1 : k ≠ "uid") (h2 : k ≠ "verify")
    (h3 : k ≠ "verification") :
    lookupKey (b.verifyStep v canon j) k = lookupKey j k := by
  unfold BadgeInstanceR.verifyStep
  cases v
  · rw [lookupKey_upsert_ne h2, lookupKey_upsert_ne h1]
  · rw [lookupKey_upsert_ne h3]

theorem hasKey_verifyStep_ne {b : BadgeInstanceR} {v : ObiVersion} {canon : Bool}
    {j : List (String × Json)} {k : String} (h1 : k ≠ "uid") (h2 : k ≠ "verify")
    (h3 : k ≠ "verification") :
    hasKey (b.verifyStep v canon j) k = hasKey j k := by
  unfold BadgeInstanceR.verifyStep
  cases v
  · rw [hasKey_upsert_ne h2, hasKey_upsert_ne h1]
  · rw [hasKey_upsert_ne h3]

theorem lookupKey_evidenceStep_ne {b : BadgeInstanceR} {v : ObiVersion}
    {j : List (String × Json)} {k : String} (h : k ≠ "evidence") :
    lookupKey (b.evidenceStep v j) k = lookupKey j k := by
  unfold BadgeInstanceR.evidenceStep
  split
  · cases v
    · rw [lookupKey_upsert_ne h]
    · rw [lookupKey_upsert_ne h]
  · rfl

theorem hasKey_evidenceStep_ne {b : BadgeInstanceR} {v : ObiVersion}
    {j : List (String × Json)} {k : String} (h : k ≠ "evidence") :
    hasKey (b.evidenceStep v j) k = hasKey j k := by
  unfold BadgeInstanceR.evidenceStep
  split
  · cases v
    · rw [hasKey_upsert_ne h]
    · rw [hasKey_upsert_ne h]
  · rfl

theorem lookupKey_narrativeStep_ne {b : BadgeInstanceR} {v : ObiVersion}
    {j : List (String × Json)} {k : String} (h : k ≠ "narrative") :
    lookupKey (b.narrativeStep v j) k = lookupKey j k := by
  unfold BadgeInstanceR.narrativeStep
  split
  · rw [lookupKey_upsert_ne h]
  · rfl

theorem hasKey_narrativeStep_ne {b : BadgeInstanceR} {v : ObiVersion}
    {j : List (String × Json)} {k : String} (h : k ≠ "narrative") :
    hasKey (b.narrativeStep v j) k = hasKey j k := by
  unfold BadgeInstanceR.narrativeStep
  split
  · rw [hasKey_upsert_ne h]
  · rfl

theorem lookupKey_issuedOnStep_ne {b : BadgeInstanceR} {j : List (String × Json)} {k : String}
    (h : k ≠ "issuedOn") : lookupKey (b.issuedOnStep j) k = lookupKey j k := by
  unfold BadgeInstanceR.issuedOnStep
  rw [lookupKey_upsert_ne h]

theorem hasKey_issuedOnStep_ne {b : BadgeInstanceR} {j : List (String × Json)} {k : String}
    (h : k ≠ "issuedOn") : hasKey (b.issuedOnStep j) k = hasKey j k := by
  unfold BadgeInstanceR.issuedOnStep
  rw [hasKey_upsert_ne h]

theorem lookupKey_expiresStep_ne {b : BadgeInstanceR} {j : List (String × Json)} {k : String}
    (h : k ≠ "expires") : lookupKey (b.expiresStep j) k = lookupKey j k := by
  unfold BadgeInstanceR.expiresStep
  split
  · rw [lookupKey_upsert_ne h]
  · rfl

theorem hasKey_expiresStep_ne {b : BadgeInstanceR} {j : List (String × Json)} {k : String}
    (h : k ≠ "expires") : hasKey (b.expiresStep j) k = hasKey j k := by
  unfold BadgeInstanceR.expiresStep
  split
  · rw [hasKey_upsert_ne h]
  · rfl

theorem lookupKey_recipientStep_ne {hashFn : String → String} {b : BadgeInstanceR}
    {j : List (String × Json)} {k : String} (h : k ≠ "recipient") :
    lookupKey (b.recipientStep hashFn j) k = lookupKey j k := by
  unfold BadgeInstanceR.recipientStep
  split
  · rw [lookupKey_upsert_ne h]
  · rw [lookupKey_upsert_ne h]

theorem hasKey_recipientStep_ne {hashFn : String → String} {b : BadgeInstanceR}
    {j : List (String × Json)} {k : String} (h : k ≠ "recipient") :
    hasKey (b.recipientStep hashFn j) k = hasKey j k := by
  unfold BadgeInstanceR.recipientStep
  split
  · rw [hasKey_upsert_ne h]
  · rw [hasKey_upsert_ne h]

theorem lookupKey_append_single_ne {j : List (String × Json)} {k k2 : String} {v : Json}
    (h : k ≠ k2) : lookupKey (j ++ [(k2, v)]) k = lookupKey j k := by
  by_cases hj : hasKey j k = true
  · exact lookupKey_append_left hj
  · have hjf : hasKey j k = false := by simpa using hj
    have hnone : lookupKey j k = none := by
      rw [lookupKey, find?_eq_none_of_hasKey_false hjf]
      rfl
    rw [lookupKey_append_right hjf, lookupKey_cons_ne h, hnone]
    rfl

theorem hasKey_append_single_ne {j : List (String × Json)} {k k2 : String} {v : Json}
    (h : k ≠ k2) : hasKey (j ++ [(k2, v)]) k = hasKey j k := by
  rw [hasKey_append]
  have : hasKey [(k2, v)] k = false := by
    simp only [hasKey, List.any_cons, List.any_nil, Bool.or_false]
    simpa using fun hc => h hc.symm
  simp [this]

theorem lookupKey_imageStep_ne {b : BadgeClassR} {j : List (String × Json)} {k : String}
    (h : k ≠ "image") : lookupKey (b.imageStep j) k = lookupKey j k := by
  unfold BadgeClassR.imageStep
  split
  · rw [lookupKey_imageOverride_ne h]
    exact lookupKey_append_single_ne h
  · rfl

theorem lookupKey_criteriaStep_ne {b : BadgeClassR} {v : ObiVersion}
    {j : List (String × Json)} {k : String} (h : k ≠ "criteria") :
    lookupKey (b.criteriaStep v j) k = lookupKey j k := by
  unfold BadgeClassR.criteriaStep
  cases v
  · rw [lookupKey_upsert_ne h]
  · rw [lookupKey_upsert_ne h]

theorem lookupKey_alignmentTagsStep_ne {b : BadgeClassR} {v : ObiVersion}
    {j : List (String × Json)} {k : String} (h1 : k ≠ "alignment") (h2 : k ≠ "tags") :
    lookupKey (b.alignmentTagsStep v j) k = lookupKey j k := by
  unfold BadgeClassR.alignmentTagsStep
  cases v
  · rfl
  · rw [lookupKey_upsert_ne h2, lookupKey_upsert_ne h1]

theorem originHTTP_append_ne_empty (s : String) : (originHTTP ++ s) ≠ "" := by
  intro h
  have := congrArg String.data h
  rw [String.data_append] at this
  simp [originHTTP] at this

theorem truthy_some_public_url (b : BadgeInstanceR) : truthy (some b.public_url) = true := by
  simp [truthy, BadgeInstanceR.public_url]
  exact originHTTP_append_ne_empty _

theorem hasKey_filtered_excluded {o : List (String × Json)} {excl : List String} {k : String}
    (hk : k ∈ excl) : hasKey (o.filter (fun kv => !excl.contains kv.1)) k = false := by
  by_contra hc
  have ht : hasKey (o.filter (fun kv => !excl.contains kv.1)) k = true := by simpa using hc
  rw [hasKey_iff] at ht
  obtain ⟨kv, hmem, hfst⟩ := List.mem_map.mp ht
  have := (List.mem_filter.mp hmem).2
  rw [hfst] at this
  simp at this
  exact this hk

theorem notMem_instance_filtered_keys {b : BadgeInstanceR} {extra : List (String × Json)}
    {k : String} (hx : b.get_filtered_json = some extra) (hk : k ∈ instanceExcludedFields)
    (hne : k ≠ "expires") : k ∉ extra.map Prod.fst := by
  intro hmem
  have hext : hasKey extra k = true := hasKey_iff.mpr hmem
  rw [BadgeInstanceR.get_filtered_json] at hx
  rcases ho : b.original_json with _ | o
  · rw [ho] at hx
    simp [filteredOriginal] at hx
  · rw [ho] at hx
    simp only [filteredOriginal, Option.map_some'] at hx
    split at hx
    · rename_i s hs
      split at hx
      · have he : extra = upsert (o.filter (fun kv => !instanceExcludedFields.contains kv.1))
            "expires" (Json.str (parse_original_datetime s)) := by
          exact (Option.some.injEq _ _ ▸ hx).symm
        rw [he, hasKey_upsert_ne hne, hasKey_filtered_excluded hk] at hext
        simp at hext
      · have he : extra = o.filter (fun kv => !instanceExcludedFields.contains kv.1) :=
          (Option.some.injEq _ _ ▸ hx).symm
        rw [he, hasKey_filtered_excluded hk] at hext
        simp at hext
    · have he : extra = o.filter (fun kv => !instanceExcludedFields.contains kv.1) :=
        (Option.some.injEq _ _ ▸ hx).symm
      rw [he, hasKey_filtered_excluded hk] at hext
      simp at hext

theorem lookupKey_get_json_of_core {hashFn : String → String} {b : BadgeInstanceR}
    {v : ObiVersion} {eb ei ie canon : Bool} {k : String} {val : Json}
    (hrev : b.revoked = false)
    (h : lookupKey (b.get_json_unrevoked hashFn v eb ei ie canon) k = some val) :
    lookupKey (b.get_json hashFn v eb ei ie canon) k = some val := by
  rw [BadgeInstanceR.get_json, if_neg (by simp [hrev])]
  split
  · split
    · rw [lookupKey_passthrough (hasKey_of_lookupKey_some h)]
      exact h
    · exact h
  · exact h

theorem hasKey_get_json_false_of_core {hashFn : String → String} {b : BadgeInstanceR}
    {v : ObiVersion} {eb ei ie canon : Bool} {k : String}
    (hrev : b.revoked = false) (hk : k ∈ instanceExcludedFields) (hne : k ≠ "expires")
    (h : hasKey (b.get_json_unrevoked hashFn v eb ei ie canon) k = false) :
    hasKey (b.get_json hashFn v eb ei ie canon) k = false := by
  rw [BadgeInstanceR.get_json, if_neg (by simp [hrev])]
  split
  · split
    · rename_i extra hx
      exact hasKey_passthrough_false h (notMem_instance_filtered_keys hx hk hne)
    · exact h
  · exact h

theorem evidence_url_truthy {b : BadgeInstanceR} (h : b.evidence ≠ []) :
    truthy b.evidence_url = true := by
  rcases he : b.evidence with _ | ⟨e, _ | ⟨e2, rest2⟩⟩
  · exact absurd he h
  · rw [BadgeInstanceR.evidence_url, he, if_neg (by simp)]
    show truthy (if truthy e.evidence_url = true then e.evidence_url else some b.public_url) = true
    by_cases ht : truthy e.evidence_url = true
    · rw [if_pos ht]
      exact ht
    · rw [if_neg ht]
      exact truthy_some_public_url b
  · rw [BadgeInstanceR.evidence_url, he, if_pos (by simp)]
    exact truthy_some_public_url b

/-- The sample assertion carrying one given evidence row. -/
def instWithEvidence (e : EvidenceR) : BadgeInstanceR :=
  { sampleInstance with evidence := [e] }

/-- C10: evidence_url is the single evidence item URL when exactly one
item with a URL exists, the assertion public URL when several items exist
or the single item lacks a URL, and absent when no evidence exists; in
the v1.1 rendering the evidence key carries exactly this value and is
omitted when absent. -/
theorem evidence_url_policy (hashFn : String → String) (b : BadgeInstanceR)
    (eb ei ie canon : Bool) :
    (∀ e, b.evidence = [e] → truthy e.evidence_url = true → b.evidence_url = e.evidence_url) ∧
    (∀ e, b.evidence = [e] → truthy e.evidence_url = false →
      b.evidence_url = some b.public_url) ∧
    (1 < b.evidence.length → b.evidence_url = some b.public_url) ∧
    (b.evidence = [] → b.evidence_url = none) ∧
    (b.revoked = false → "evidence" ∉ b.extensions.map Prod.fst →
      (b.evidence = [] →
        hasKey (b.get_json hashFn ObiVersion.v1_1 eb ei ie canon) "evidence" = false) ∧
      (b.evidence ≠ [] →
        lookupKey (b.get_json hashFn ObiVersion.v1_1 eb ei ie canon) "evidence" =
          b.evidence_url.map Json.str)) := by
  refine ⟨?_, ?_, ?_, ?_, ?_⟩
  · intro e he ht
    rw [BadgeInstanceR.evidence_url, he, if_neg (by simp)]
    show (if truthy e.evidence_url = true then e.evidence_url else some b.public_url) =
      e.evidence_url
    rw [if_pos ht]
  · intro e he ht
    rw [BadgeInstanceR.evidence_url, he, if_neg (by simp)]
    show (if truthy e.evidence_url = true then e.evidence_url else some b.public_url) =
      some b.public_url
    rw [if_neg (by simp [ht])]
  · intro h
    rw [BadgeInstanceR.evidence_url, if_pos h]
  · intro he
    rw [BadgeInstanceR.evidence_url, he, if_neg (by simp)]
  · intro hrev hext
    constructor
    · intro he
      apply hasKey_get_json_false_of_core hrev (by decide) (by decide)
      have heu : b.evidence_url = none := by
        rw [BadgeInstanceR.evidence_url, he, if_neg (by simp)]
      have hstep : ∀ j, b.evidenceStep (get_obi_context ObiVersion.v1_1).1 j = j := by
        intro j
        simp only [BadgeInstanceR.evidenceStep, heu]
        rfl
      rw [BadgeInstanceR.get_json_unrevoked, hasKey_appendExtensions hext,
        hasKey_recipientStep_ne (by decide), hasKey_expiresStep_ne (by decide),
        hasKey_issuedOnStep_ne (by decide), hasKey_narrativeStep_ne (by decide), hstep,
        hasKey_sourceUrlStep_ne (by decide) (by decide) (by decide) (by decide),
        hasKey_verifyStep_ne (by decide) (by decide) (by decide),
        hasKey_expandStep_ne (by decide), hasKey_imageOverride_ne (by decide),
        hasKey_append_single_ne (by decide), BadgeInstanceR.jsonBase]
      rfl
    · intro hne
      have htr := evidence_url_truthy hne
      obtain ⟨u, hu⟩ : ∃ u, b.evidence_url = some u := by
        rcases hcase : b.evidence_url with _ | u
        · rw [hcase] at htr
          simp [truthy] at htr
        · exact ⟨u, rfl⟩
      rw [hu]
      show lookupKey (BadgeInstanceR.get_json hashFn b ObiVersion.v1_1 eb ei ie canon)
        "evidence" = some (Json.str u)
      apply lookupKey_get_json_of_core hrev
      rw [BadgeInstanceR.get_json_unrevoked, lookupKey_appendExtensions hext,
        lookupKey_recipientStep_ne (by decide), lookupKey_expiresStep_ne (by decide),
        lookupKey_issuedOnStep_ne (by decide), lookupKey_narrativeStep_ne (by decide)]
      show lookupKey (b.evidenceStep (get_obi_context ObiVersion.v1_1).1 _) "evidence" = _
      simp only [BadgeInstanceR.evidenceStep]
      rw [if_pos htr]
      show lookupKey (upsert _ "evidence" (jsonOfOptStr b.evidence_url)) "evidence" = _
      rw [lookupKey_upsert_self, hu]
      rfl

/-- Witness for C10 at concrete assertions: one evidence item carrying a
URL, one without, two items, and none. -/
theorem evidence_url_policy_witness :
    (∀ e, (instWithEvidence ⟨some "https://ev.example/1", none⟩).evidence = [e] →
      truthy e.evidence_url = true →
      (instWithEvidence ⟨some "https://ev.example/1", none⟩).evidence_url = e.evidence_url) ∧
    (∀ e, (instWithEvidence ⟨none, some "n"⟩).evidence = [e] → truthy e.evidence_url = false →
      (instWithEvidence ⟨none, some "n"⟩).evidence_url =
        some (instWithEvidence ⟨none, some "n"⟩).public_url) ∧
    (sampleInstance.evidence = [] → sampleInstance.evidence_url = none) ∧
    (sampleInstance.revoked = false → "evidence" ∉ sampleInstance.extensions.map Prod.fst →
      sampleInstance.evidence = [] →
      hasKey (sampleInstance.get_json id ObiVersion.v1_1 false false true false) "evidence" =
        false) ∧
    ((instWithEvidence ⟨some "https://ev.example/1", none⟩).revoked = false →
      "evidence" ∉ (instWithEvidence ⟨some "https://ev.example/1", none⟩).extensions.map Prod.fst →
      (instWithEvidence ⟨some "https://ev.example/1", none⟩).evidence ≠ [] →
      lookupKey ((instWithEvidence ⟨some "https://ev.example/1", none⟩).get_json id
          ObiVersion.v1_1 false false true false) "evidence" =
        (instWithEvidence ⟨some "https://ev.example/1", none⟩).evidence_url.map Json.str) :=
  ⟨(evidence_url_policy id (instWithEvidence ⟨some "https://ev.example/1", none⟩)
      false false true false).1,
   (evidence_url_policy id (instWithEvidence ⟨none, some "n"⟩) false false true false).2.1,
   (evidence_url_policy id sampleInstance false false true false).2.2.2.1,
   fun h1 h2 => ((evidence_url_policy id sampleInstance false false true false).2.2.2.2 h1 h2).1,
   fun h1 h2 => ((evidence_url_policy id (instWithEvidence ⟨some "https://ev.example/1", none⟩)
      false false true false).2.2.2.2 h1 h2).2⟩

/-- An unhashed variant of the sample assertion. -/
def plainInstance : BadgeInstanceR := { sampleInstance with hashed := false }

/-- An unsaved variant of the sample assertion. -/
def unsavedInstance : BadgeInstanceR := { sampleInstance with pk := none, salt := none }

/-- C2: the per-assertion salt is generated exactly at creation (the first
save sets it from the fresh uuid, later saves never touch it); a hashed
non-revoked assertion renders its recipient with identity equal to the
digest of identifier concatenated with the salt plus a salt key, and an
unhashed one renders the plaintext identity with no salt key. -/
theorem recipient_hashing (ctx : SaveCtx) (hashFn : String → String) (b : BadgeInstanceR)
    (v : ObiVersion) (eb ei ie canon : Bool) :
    (b.pk = none → ctx.blacklisted b.recipient_type b.recipient_identifier = false →
      ∃ b2, b.save ctx = Except.ok b2 ∧ b2.salt = some ctx.freshSalt) ∧
    (b.pk ≠ none → ∀ b2, b.save ctx = Except.ok b2 → b2.salt = b.salt) ∧
    (∀ s, b.revoked = false → b.hashed = true → b.salt = some s → s ≠ "" →
      "recipient" ∉ b.extensions.map Prod.fst →
      lookupKey (b.get_json hashFn v eb ei ie canon) "recipient" =
        some (Json.obj [("hashed", Json.bool true), ("type", Json.str b.recipient_type.token),
          ("identity", Json.str (hashFn (b.recipient_identifier ++ s))),
          ("salt", Json.str s)]) ∧
      hasKey [("hashed", Json.bool true), ("type", Json.str b.recipient_type.token),
        ("identity", Json.str (hashFn (b.recipient_identifier ++ s))),
        ("salt", Json.str s)] "salt" = true) ∧
    (b.revoked = false → b.hashed = false → "recipient" ∉ b.extensions.map Prod.fst →
      lookupKey (b.get_json hashFn v eb ei ie canon) "recipient" =
        some (Json.obj [("hashed", Json.bool false), ("type", Json.str b.recipient_type.token),
          ("identity", Json.str b.recipient_identifier)]) ∧
      hasKey [("hashed", Json.bool false), ("type", Json.str b.recipient_type.token),
        ("identity", Json.str b.recipient_identifier)] "salt" = false) := by
  refine ⟨?_, ?_, ?_, ?_⟩
  · intro h1 h2
    simp only [BadgeInstanceR.save, h1, Option.isNone_none, if_true, h2, Bool.false_eq_true,
      if_false]
    exact ⟨_, rfl, rfl⟩
  · intro h1 b2 hok
    rcases hpk : b.pk with _ | k
    · exact absurd hpk h1
    · simp only [BadgeInstanceR.save, hpk, Option.isNone_some, Bool.false_eq_true, if_false,
        Except.ok.injEq] at hok
      rw [← hok]
  · intro s hrev hh hs hsne hext
    constructor
    · apply lookupKey_get_json_of_core hrev
      have htr : truthy b.salt = true := by
        rw [hs]
        simp [truthy, hsne]
      rw [BadgeInstanceR.get_json_unrevoked, lookupKey_appendExtensions hext]
      simp only [BadgeInstanceR.recipientStep, hh, if_true, htr]
      rw [lookupKey_upsert_self, hs]
      rfl
    · rfl
  · intro hrev hh hext
    constructor
    · apply lookupKey_get_json_of_core hrev
      rw [BadgeInstanceR.get_json_unrevoked, lookupKey_appendExtensions hext]
      simp only [BadgeInstanceR.recipientStep, hh, Bool.false_eq_true, if_false]
      rw [lookupKey_upsert_self]
    · rfl

/-- Witness for C2 at concrete assertions: creation generates the salt, a
later save keeps it, and both recipient renderings. -/
theorem recipient_hashing_witness :
    (unsavedInstance.pk = none → (fun (_ : RecipientType) (_ : String) => false)
        unsavedInstance.recipient_type unsavedInstance.recipient_identifier = false →
      ∃ b2, unsavedInstance.save ⟨fun _ _ => false, "newsalt", 5⟩ = Except.ok b2 ∧
        b2.salt = some "newsalt") ∧
    (sampleInstance.pk ≠ none → ∀ b2,
      sampleInstance.save ⟨fun _ _ => false, "newsalt", 5⟩ = Except.ok b2 →
      b2.salt = sampleInstance.salt) ∧
    (lookupKey (sampleInstance.get_json id ObiVersion.v2_0 false false true false) "recipient" =
      some (Json.obj [("hashed", Json.bool true), ("type", Json.str "email"),
        ("identity", Json.str "a@example.coms4lt"), ("salt", Json.str "s4lt")])) ∧
    (lookupKey (plainInstance.get_json id ObiVersion.v2_0 false false true false) "recipient" =
      some (Json.obj [("hashed", Json.bool false), ("type", Json.str "email"),
        ("identity", Json.str "a@example.com")]) ∧
      hasKey [("hashed", Json.bool false), ("type", Json.str "email"),
        ("identity", Json.str "a@example.com")] "salt" = false) :=
  ⟨(recipient_hashing ⟨fun _ _ => false, "newsalt", 5⟩ id unsavedInstance ObiVersion.v2_0
      false false true false).1,
   (recipient_hashing ⟨fun _ _ => false, "newsalt", 5⟩ id sampleInstance ObiVersion.v2_0
      false false true false).2.1,
   ((recipient_hashing ⟨fun _ _ => false, "newsalt", 5⟩ id sampleInstance ObiVersion.v2_0
      false false true false).2.2.1 "s4lt" rfl rfl rfl (by decide) (by decide)).1,
   (recipient_hashing ⟨fun _ _ => false, "newsalt", 5⟩ id plainInstance ObiVersion.v2_0
      false false true false).2.2.2 rfl rfl (by decide)⟩

theorem lookupKey_issuer_get_json_of_core {i : IssuerR} {v : ObiVersion} {ie canon : Bool}
    {k : String} {val : Json} (h : lookupKey (i.get_json_core v canon) k = some val) :
    lookupKey (i.get_json v ie canon) k = some val := by
  rw [IssuerR.get_json]
  split
  · split
    · rw [lookupKey_passthrough (hasKey_of_lookupKey_some h)]
      exact h
    · exact h
  · exact h

theorem lookupKey_badgeclass_get_json_of_core {b : BadgeClassR} {v : ObiVersion}
    {ie canon : Bool} {k : String} {val : Json}
    (h : lookupKey (b.get_json_core v canon) k = some val) :
    lookupKey (b.get_json v ie canon) k = some val := by
  rw [BadgeClassR.get_json]
  split
  · split
    · rw [lookupKey_passthrough (hasKey_of_lookupKey_some h)]
      exact h
    · exact h
  · exact h

theorem lookupKey_issuer_core_id {i : IssuerR} {v : ObiVersion} {canon : Bool}
    (hext : "id" ∉ i.extensions.map Prod.fst) :
    lookupKey (i.get_json_core v canon) "id" =
      some (Json.str (if canon then i.jsonld_id
                      else add_obi_version_ifneeded i.jsonld_id v)) := by
  rw [IssuerR.get_json_core, lookupKey_appendExtensions hext,
    lookupKey_sourceUrlStep_ne (by decide) (by decide) (by decide) (by decide),
    lookupKey_imageOverride_ne (by decide), lookupKey_append_single_ne (by decide),
    IssuerR.jsonBase, lookupKey_cons_ne (by decide), lookupKey_cons_ne (by decide),
    lookupKey_cons_self]
  rfl

theorem lookupKey_badgeclass_core_id {b : BadgeClassR} {v : ObiVersion} {canon : Bool}
    (hext : "id" ∉ b.extensions.map Prod.fst) :
    lookupKey (b.get_json_core v canon) "id" =
      some (Json.str (if canon then b.jsonld_id
                      else add_obi_version_ifneeded b.jsonld_id v)) := by
  rw [BadgeClassR.get_json_core, lookupKey_appendExtensions hext,
    lookupKey_alignmentTagsStep_ne (by decide) (by decide),
    lookupKey_sourceUrlStep_ne (by decide) (by decide) (by decide) (by decide),
    lookupKey_criteriaStep_ne (by decide), lookupKey_imageStep_ne (by decide),
    BadgeClassR.jsonBase, lookupKey_cons_ne (by decide), lookupKey_cons_ne (by decide),
    lookupKey_cons_self]
  rfl

theorem lookupKey_instance_core_id {hashFn : String → String} {b : BadgeInstanceR}
    {v : ObiVersion} {eb ei ie canon : Bool} (hext : "id" ∉ b.extensions.map Prod.fst) :
    lookupKey (b.get_json_unrevoked hashFn v eb ei ie canon) "id" =
      some (Json.str (add_obi_version_ifneeded b.jsonld_id v)) := by
  rw [BadgeInstanceR.get_json_unrevoked, lookupKey_appendExtensions hext,
    lookupKey_recipientStep_ne (by decide), lookupKey_expiresStep_ne (by decide),
    lookupKey_issuedOnStep_ne (by decide), lookupKey_narrativeStep_ne (by decide),
    lookupKey_evidenceStep_ne (by decide),
    lookupKey_sourceUrlStep_ne (by decide) (by decide) (by decide) (by decide),
    lookupKey_verifyStep_ne (by decide) (by decide) (by decide),
    lookupKey_expandStep_ne (by decide), lookupKey_imageOverride_ne (by decide),
    lookupKey_append_single_ne (by decide), BadgeInstanceR.jsonBase,
    lookupKey_cons_ne (by decide), lookupKey_cons_ne (by decide), lookupKey_cons_self]
  rfl

/-- Counterexample to C6 as stated: a non-revoked assertion rendered at
v1.1 with use_canonical_id set still carries the version-suffixed id, not
its canonical jsonld id. -/
theorem entity_id_versioning_counterexample :
    lookupKey (sampleInstance.get_json id ObiVersion.v1_1 false false true true) "id" =
      some (Json.str "https://example.org/public/assertions/ai1?v=1_1") ∧
    sampleInstance.jsonld_id = "https://example.org/public/assertions/ai1" ∧
    "https://example.org/public/assertions/ai1?v=1_1" ≠
      "https://example.org/public/assertions/ai1" := by
  refine ⟨by rfl, by rfl, by decide⟩

/-- C6 as amended: Issuer and BadgeClass render id as the canonical
jsonld id when use_canonical_id is set and as its version-suffixed form
otherwise; a revoked BadgeInstance does the same, but a non-revoked
BadgeInstance always renders the version-suffixed id, ignoring
use_canonical_id. -/
theorem entity_id_versioning (hashFn : String → String) (i : IssuerR) (bc : BadgeClassR)
    (b : BadgeInstanceR) (v : ObiVersion) (eb ei ie : Bool) :
    ("id" ∉ i.extensions.map Prod.fst →
      lookupKey (i.get_json v ie true) "id" = some (Json.str i.jsonld_id) ∧
      lookupKey (i.get_json v ie false) "id" =
        some (Json.str (add_obi_version_ifneeded i.jsonld_id v))) ∧
    ("id" ∉ bc.extensions.map Prod.fst →
      lookupKey (bc.get_json v ie true) "id" = some (Json.str bc.jsonld_id) ∧
      lookupKey (bc.get_json v ie false) "id" =
        some (Json.str (add_obi_version_ifneeded bc.jsonld_id v))) ∧
    (b.revoked = true →
      lookupKey (b.get_json hashFn v eb ei ie true) "id" = some (Json.str b.jsonld_id) ∧
      lookupKey (b.get_json hashFn v eb ei ie false) "id" =
        some (Json.str (add_obi_version_ifneeded b.jsonld_id v))) ∧
    (b.revoked = false → "id" ∉ b.extensions.map Prod.fst → ∀ canon,
      lookupKey (b.get_json hashFn v eb ei ie canon) "id" =
        some (Json.str (add_obi_version_ifneeded b.jsonld_id v))) := by
  refine ⟨?_, ?_, ?_, ?_⟩
  · intro hext
    constructor
    · exact lookupKey_issuer_get_json_of_core (by rw [lookupKey_issuer_core_id hext]; rfl)
    · exact lookupKey_issuer_get_json_of_core (by rw [lookupKey_issuer_core_id hext]; rfl)
  · intro hext
    constructor
    · exact lookupKey_badgeclass_get_json_of_core
        (by rw [lookupKey_badgeclass_core_id hext]; rfl)
    · exact lookupKey_badgeclass_get_json_of_core
        (by rw [lookupKey_badgeclass_core_id hext]; rfl)
  · intro hrev
    constructor
    · rw [BadgeInstanceR.get_json, if_pos (by rw [hrev]), BadgeInstanceR.revoked_json,
        lookupKey_cons_ne (by decide), lookupKey_cons_ne (by decide), lookupKey_cons_self]
      rfl
    · rw [BadgeInstanceR.get_json, if_pos (by rw [hrev]), BadgeInstanceR.revoked_json,
        lookupKey_cons_ne (by decide), lookupKey_cons_ne (by decide), lookupKey_cons_self]
      rfl
  · intro hrev hext canon
    exact lookupKey_get_json_of_core hrev (lookupKey_instance_core_id hext)

/-- Witness for C6 as amended, at the sample entities and both canonical
modes. -/
theorem entity_id_versioning_witness :
    (lookupKey (sampleIssuer.get_json ObiVersion.v1_1 true true) "id" =
      some (Json.str sampleIssuer.jsonld_id) ∧
     lookupKey (sampleIssuer.get_json ObiVersion.v1_1 true false) "id" =
      some (Json.str (add_obi_version_ifneeded sampleIssuer.jsonld_id ObiVersion.v1_1))) ∧
    (lookupKey (sampleBadgeClass.get_json ObiVersion.v1_1 true true) "id" =
      some (Json.str sampleBadgeClass.jsonld_id) ∧
     lookupKey (sampleBadgeClass.get_json ObiVersion.v1_1 true false) "id" =
      some (Json.str (add_obi_version_ifneeded sampleBadgeClass.jsonld_id ObiVersion.v1_1))) ∧
    (lookupKey (revokedSample.get_json id ObiVersion.v1_1 false false true true) "id" =
      some (Json.str revokedSample.jsonld_id) ∧
     lookupKey (revokedSample.get_json id ObiVersion.v1_1 false false true false) "id" =
      some (Json.str (add_obi_version_ifneeded revokedSample.jsonld_id ObiVersion.v1_1))) ∧
    (∀ canon,
      lookupKey (sampleInstance.get_json id ObiVersion.v1_1 false false true canon) "id" =
        some (Json.str (add_obi_version_ifneeded sampleInstance.jsonld_id ObiVersion.v1_1))) :=
  ⟨(entity_id_versioning id sampleIssuer sampleBadgeClass sampleInstance ObiVersion.v1_1
      false false true).1 (by decide),
   (entity_id_versioning id sampleIssuer sampleBadgeClass sampleInstance ObiVersion.v1_1
      false false true).2.1 (by decide),
   (entity_id_versioning id sampleIssuer sampleBadgeClass revokedSample ObiVersion.v1_1
      false false true).2.2.1 rfl,
   (entity_id_versioning id sampleIssuer sampleBadgeClass sampleInstance ObiVersion.v1_1
      false false true).2.2.2 rfl (by decide)⟩

theorem lookupKey_append_of_absent {j l : List (String × Json)} {k : String}
    (hl : hasKey l k = false) : lookupKey (j ++ l) k = lookupKey j k := by
  by_cases hj : hasKey j k = true
  · exact lookupKey_append_left hj
  · have hjf : hasKey j k = false := by simpa using hj
    rw [lookupKey_append_right hjf, lookupKey, find?_eq_none_of_hasKey_false hl, lookupKey,
      find?_eq_none_of_hasKey_false hjf]

theorem hasKey_filter_false {l : List (String × Json)} {p : String × Json → Bool} {k : String}
    (h : hasKey l k = false) : hasKey (l.filter p) k = false := by
  by_contra hc
  have ht : hasKey (l.filter p) k = true := by simpa using hc
  rw [hasKey_iff] at ht
  obtain ⟨kv, hmem, hfst⟩ := List.mem_map.mp ht
  have : hasKey l k = true :=
    hasKey_iff.mpr (hfst ▸ List.mem_map_of_mem Prod.fst (List.mem_filter.mp hmem).1)
  rw [h] at this
  exact Bool.false_ne_true this

theorem keys_upsert_of_hasKey {j : List (String × Json)} {k : String} {v : Json}
    (h : hasKey j k = true) : (upsert j k v).map Prod.fst = j.map Prod.fst := by
  rw [upsert_of_hasKey_true h, List.map_map]
  refine List.map_congr_left ?_
  intro p _
  by_cases hp : p.1 = k
  · simp [Function.comp, hp]
  · simp [Function.comp, hp]

theorem mem_upsert_ne {j : List (String × Json)} {k0 k : String} {v0 val : Json}
    (hmem : (k, val) ∈ upsert j k0 v0) (hne : k ≠ k0) : (k, val) ∈ j := by
  by_cases h : hasKey j k0 = true
  · rw [upsert_of_hasKey_true h] at hmem
    obtain ⟨p, hp, heq⟩ := List.mem_map.mp hmem
    by_cases hpk : p.1 = k0
    · rw [if_pos (by simp [hpk])] at heq
      have hk : p.1 = k := congrArg Prod.fst heq
      exact absurd (hk ▸ hpk) hne
    · rw [if_neg (by simp [hpk])] at heq
      exact heq ▸ hp
  · have hf : hasKey j k0 = false := by simpa using h
    rw [upsert_of_hasKey_false hf] at hmem
    rcases List.mem_append.mp hmem with hmem | hmem
    · exact hmem
    · rcases List.mem_cons.mp hmem with heq | hnil
      · exact absurd (congrArg Prod.fst heq) hne
      · exact absurd hnil (List.not_mem_nil _)

theorem nodup_keys_filter {orig : List (String × Json)} {p : String × Json → Bool}
    (h : (orig.map Prod.fst).Nodup) : ((orig.filter p).map Prod.fst).Nodup :=
  h.sublist (List.Sublist.map Prod.fst (List.filter_sublist orig))

/-- Keys of the filtered extras of an instance (the filtered original
keys; the expires normalization rewrites a value in place). -/
theorem instance_extra_keys {b : BadgeInstanceR} {orig extra : List (String × Json)}
    (horig : b.original_json = some orig) (hx : b.get_filtered_json = some extra) :
    extra.map Prod.fst =
      (orig.filter (fun kv => !instanceExcludedFields.contains kv.1)).map Prod.fst := by
  rw [BadgeInstanceR.get_filtered_json, horig] at hx
  simp only [filteredOriginal, Option.map_some'] at hx
  split at hx
  · rename_i s hs
    split at hx
    · have he : extra = upsert (orig.filter (fun kv => !instanceExcludedFields.contains kv.1))
          "expires" (Json.str (parse_original_datetime s)) := (Option.some.injEq _ _ ▸ hx).symm
      rw [he, keys_upsert_of_hasKey (hasKey_of_lookupKey_some hs)]
    · have he : extra = orig.filter (fun kv => !instanceExcludedFields.contains kv.1) :=
        (Option.some.injEq _ _ ▸ hx).symm
      rw [he]
  · have he : extra = orig.filter (fun kv => !instanceExcludedFields.contains kv.1) :=
      (Option.some.injEq _ _ ▸ hx).symm
    rw [he]

/-- Every extra binding other than expires is an original binding. -/
theorem instance_extra_values {b : BadgeInstanceR} {orig extra : List (String × Json)}
    (horig : b.original_json = some orig) (hx : b.get_filtered_json = some extra) :
    ∀ k val, (k, val) ∈ extra → k ≠ "expires" → (k, val) ∈ orig := by
  intro k val hmem hne
  rw [BadgeInstanceR.get_filtered_json, horig] at hx
  simp only [filteredOriginal, Option.map_some'] at hx
  have hof : ∀ kv ∈ orig.filter (fun kv => !instanceExcludedFields.contains kv.1), kv ∈ orig :=
    fun kv hkv => (List.mem_filter.mp hkv).1
  split at hx
  · rename_i s hs
    split at hx
    · have he : extra = upsert (orig.filter (fun kv => !instanceExcludedFields.contains kv.1))
          "expires" (Json.str (parse_original_datetime s)) := (Option.some.injEq _ _ ▸ hx).symm
      rw [he] at hmem
      exact hof _ (mem_upsert_ne hmem hne)
    · have he : extra = orig.filter (fun kv => !instanceExcludedFields.contains kv.1) :=
        (Option.some.injEq _ _ ▸ hx).symm
      rw [he] at hmem
      exact hof _ hmem
  · have he : extra = orig.filter (fun kv => !instanceExcludedFields.contains kv.1) :=
      (Option.some.injEq _ _ ▸ hx).symm
    rw [he] at hmem
    exact hof _ hmem

/-- The expires normalization: a truthy non-Z string expires value is
replaced by its canonical UTC form in the extras. -/
theorem instance_extra_expires {b : BadgeInstanceR} {orig extra : List (String × Json)}
    {s : String} (horig : b.original_json = some orig) (hx : b.get_filtered_json = some extra)
    (hs : lookupKey (orig.filter (fun kv => !instanceExcludedFields.contains kv.1)) "expires" =
      some (Json.str s)) (hne : s ≠ "") (hz : strEndsWith s "Z" = false) :
    lookupKey extra "expires" = some (Json.str (parse_original_datetime s)) := by
  rw [BadgeInstanceR.get_filtered_json, horig] at hx
  simp only [filteredOriginal, Option.map_some'] at hx
  split at hx
  · rename_i s' hs'
    rw [hs] at hs'
    simp only [Option.some.injEq, Json.str.injEq] at hs'
    subst hs'
    rw [if_pos (by simp [hne, hz])] at hx
    have he : extra = upsert (orig.filter (fun kv => !instanceExcludedFields.contains kv.1))
        "expires" (Json.str (parse_original_datetime s)) := (Option.some.injEq _ _ ▸ hx).symm
    rw [he, lookupKey_upsert_self]
  · rename_i hno
    exact absurd hs (by exact fun hc => hno _ hc)

/-- The sample assertion with an imported original JSON carrying a
timezone-less expires value and an unknown third-party key. -/
def expSample : BadgeInstanceR :=
  { sampleInstance with original_json := some [("expires", Json.str "2024-06-05T10:00:00"), ("thirdParty", Json.str "kept")] }

/-- Counterexample to C5 as stated: the expires key of the imported JSON
is neither excluded nor already present in the computed output, yet it is
appended in normalized form, not with its original value. -/
theorem imported_extra_passthrough_counterexample :
    expSample.original_json =
      some [("expires", Json.str "2024-06-05T10:00:00"), ("thirdParty", Json.str "kept")] ∧
    "expires" ∉ instanceExcludedFields ∧
    hasKey (expSample.get_json_unrevoked id ObiVersion.v2_0 false false true false)
      "expires" = false ∧
    lookupKey (expSample.get_json id ObiVersion.v2_0 false false true false) "expires" =
      some (Json.str "2024-06-05T10:00:00Z") ∧
    "2024-06-05T10:00:00Z" ≠ "2024-06-05T10:00:00" :=
  ⟨rfl, by decide, by rfl, by rfl, by decide⟩

/-- C5 as amended: with include_extra set, the output is the computed
document followed by exactly those filtered original bindings whose keys
are not already present; every appended binding other than expires
carries its original value; a truthy string expires value lacking the Z
suffix is appended in normalized ISO-8601 UTC form; and no excluded key
is ever taken from the imported JSON.  For a BadgeInstance this concerns
the non-revoked rendering (the revoked short-circuit suppresses all
extras). -/
theorem imported_extra_passthrough (hashFn : String → String) (i : IssuerR) (bc : BadgeClassR)
    (b : BadgeInstanceR) (v : ObiVersion) (eb ei canon : Bool) :
    (∀ orig, i.original_json = some orig → (orig.map Prod.fst).Nodup →
      i.get_json v true canon = i.get_json_core v canon ++
        ((orig.filter (fun kv => !issuerExcludedFields.contains kv.1)).filter
          (fun kv => !hasKey (i.get_json_core v canon) kv.1)) ∧
      ∀ k, k ∈ issuerExcludedFields →
        lookupKey (i.get_json v true canon) k = lookupKey (i.get_json_core v canon) k) ∧
    (∀ orig, bc.original_json = some orig → (orig.map Prod.fst).Nodup →
      bc.get_json v true canon = bc.get_json_core v canon ++
        ((orig.filter (fun kv => !badgeclassExcludedFields.contains kv.1)).filter
          (fun kv => !hasKey (bc.get_json_core v canon) kv.1)) ∧
      ∀ k, k ∈ badgeclassExcludedFields →
        lookupKey (bc.get_json v true canon) k = lookupKey (bc.get_json_core v canon) k) ∧
    (∀ orig extra, b.revoked = false → b.original_json = some orig →
      (orig.map Prod.fst).Nodup → b.get_filtered_json = some extra →
      b.get_json hashFn v eb ei true canon = b.get_json_unrevoked hashFn v eb ei true canon ++
        extra.filter
          (fun kv => !hasKey (b.get_json_unrevoked hashFn v eb ei true canon) kv.1) ∧
      extra.map Prod.fst =
        (orig.filter (fun kv => !instanceExcludedFields.contains kv.1)).map Prod.fst ∧
      (∀ k val, (k, val) ∈ extra → k ≠ "expires" → (k, val) ∈ orig) ∧
      (∀ s, lookupKey (orig.filter (fun kv => !instanceExcludedFields.contains kv.1))
          "expires" = some (Json.str s) → s ≠ "" → strEndsWith s "Z" = false →
        lookupKey extra "expires" = some (Json.str (parse_original_datetime s))) ∧
      (∀ k, k ∈ instanceExcludedFields →
        lookupKey (b.get_json hashFn v eb ei true canon) k =
          lookupKey (b.get_json_unrevoked hashFn v eb ei true canon) k)) := by
  refine ⟨?_, ?_, ?_⟩
  · intro orig horig hnodup
    have hx : i.get_filtered_json =
        some (orig.filter (fun kv => !issuerExcludedFields.contains kv.1)) := by
      rw [IssuerR.get_filtered_json, filteredOriginal, horig, Option.map_some']
    have heq : i.get_json v true canon = i.get_json_core v canon ++
        ((orig.filter (fun kv => !issuerExcludedFields.contains kv.1)).filter
          (fun kv => !hasKey (i.get_json_core v canon) kv.1)) := by
      rw [IssuerR.get_json]
      simp only [if_true, hx]
      exact passthrough_eq_append_filter (nodup_keys_filter hnodup) _
    refine ⟨heq, ?_⟩
    intro k hk
    rw [heq]
    exact lookupKey_append_of_absent (hasKey_filter_false (hasKey_filtered_excluded hk))
  · intro orig horig hnodup
    have hx : bc.get_filtered_json =
        some (orig.filter (fun kv => !badgeclassExcludedFields.contains kv.1)) := by
      rw [BadgeClassR.get_filtered_json, filteredOriginal, horig, Option.map_some']
    have heq : bc.get_json v true canon = bc.get_json_core v canon ++
        ((orig.filter (fun kv => !badgeclassExcludedFields.contains kv.1)).filter
          (fun kv => !hasKey (bc.get_json_core v canon) kv.1)) := by
      rw [BadgeClassR.get_json]
      simp only [if_true, hx]
      exact passthrough_eq_append_filter (nodup_keys_filter hnodup) _
    refine ⟨heq, ?_⟩
    intro k hk
    rw [heq]
    exact lookupKey_append_of_absent (hasKey_filter_false (hasKey_filtered_excluded hk))
  · intro orig extra hrev horig hnodup hx
    have hkeys := instance_extra_keys horig hx
    have hxnodup : (extra.map Prod.fst).Nodup := by
      rw [hkeys]
      exact nodup_keys_filter hnodup
    have heq : b.get_json hashFn v eb ei true canon =
        b.get_json_unrevoked hashFn v eb ei true canon ++
        extra.filter
          (fun kv => !hasKey (b.get_json_unrevoked hashFn v eb ei true canon) kv.1) := by
      rw [BadgeInstanceR.get_json, if_neg (by simp [hrev])]
      simp only [if_true, hx]
      exact passthrough_eq_append_filter hxnodup _
    refine ⟨heq, hkeys, instance_extra_values horig hx, fun s hs hne hz => instance_extra_expires horig hx hs hne hz, ?_⟩
    intro k hk
    rw [heq]
    have hxk : hasKey extra k = false := by
      by_contra hc
      have ht : hasKey extra k = true := by simpa using hc
      rw [hasKey_iff, hkeys, ← hasKey_iff] at ht
      rw [hasKey_filtered_excluded hk] at ht
      exact Bool.false_ne_true ht
    exact lookupKey_append_of_absent (hasKey_filter_false hxk)

/-- Witness for C5 as amended at the sample entities carrying imported
JSON with an unknown key. -/
theorem imported_extra_passthrough_witness :
    (IssuerR.get_json { sampleIssuer with original_json := some [("extraKey", Json.str "x")] }
        ObiVersion.v2_0 true false =
      IssuerR.get_json_core { sampleIssuer with
          original_json := some [("extraKey", Json.str "x")] } ObiVersion.v2_0 false ++
        [("extraKey", Json.str "x")]) ∧
    (lookupKey (expSample.get_json id ObiVersion.v2_0 false false true false) "thirdParty" =
      some (Json.str "kept")) ∧
    (lookupKey (expSample.get_json id ObiVersion.v2_0 false false true false) "recipient" =
      lookupKey (expSample.get_json_unrevoked id ObiVersion.v2_0 false false true false)
        "recipient") := by
  refine ⟨?_, by rfl, ?_⟩
  · have h := ((imported_extra_passthrough id
      { sampleIssuer with original_json := some [("extraKey", Json.str "x")] } sampleBadgeClass
      sampleInstance ObiVersion.v2_0 false false false).1 [("extraKey", Json.str "x")] rfl
      (by decide)).1
    rw [h]
    rfl
  · exact ((imported_extra_passthrough id sampleIssuer sampleBadgeClass expSample
      ObiVersion.v2_0 false false false).2.2
      [("expires", Json.str "2024-06-05T10:00:00"), ("thirdParty", Json.str "kept")]
      [("expires", Json.str "2024-06-05T10:00:00Z"), ("thirdParty", Json.str "kept")]
      rfl rfl (by decide) (by rfl)).2.2.2.2 "recipient" (by decide)

theorem length_le_foldl_append :
    ∀ (l : List String) (a f : String), f ∈ l →
      f.length ≤ (l.foldl (fun r s => r ++ s) a).length := by
  have hmono : ∀ (l : List String) (a : String),
      a.length ≤ (l.foldl (fun r s => r ++ s) a).length := by
    intro l
    induction l with
    | nil => intro a; exact le_refl _
    | cons s t ih =>
      intro a
      calc a.length ≤ (a ++ s).length := by rw [String.length_append]; omega
        _ ≤ _ := ih (a ++ s)
  intro l
  induction l with
  | nil => intro a f hf; exact absurd hf (List.not_mem_nil _)
  | cons s t ih =>
    intro a f hf
    rcases List.mem_cons.mp hf with rfl | hf
    · calc f.length ≤ (a ++ f).length := by rw [String.length_append]; omega
        _ ≤ _ := hmono t (a ++ f)
    · exact ih (a ++ s) f hf

theorem saveFile_snd_fresh (st : StorageSt) (name : String) :
    (st.saveFile name).2 ∉ st.files := by
  intro hmem
  rw [StorageSt.saveFile] at hmem
  by_cases h : name ∈ st.files
  · simp only [if_pos h] at hmem
    have hlen : ∀ f ∈ st.files, f.length ≤ (String.join st.files).length :=
      fun f hf => length_le_foldl_append st.files "" f hf
    have := hlen _ hmem
    rw [String.length_append, String.length_append, String.length_append] at this
    have h1 : ("-" : String).length = 1 := rfl
    omega
  · simp only [if_neg h] at hmem
    exact h hmem

/-- Counterexample to C9 as stated: at a concrete assertion and storage,
the observable state right after rebake deletes the old file still has
the persisted image reference naming that deleted file, so a reader
following the reference at that point finds zero valid stored images. -/
theorem rebake_reader_window_counterexample :
    BadgeInstanceR.rebakeTrace ⟨["a.png"]⟩ { sampleInstance with image := some "a.png" } true =
      [(⟨["a.png"]⟩, some "a.png"), (⟨["a.png", "a.png-rebaked"]⟩, some "a.png"),
       (⟨["a.png-rebaked"]⟩, some "a.png"), (⟨["a.png-rebaked"]⟩, some "a.png-rebaked")] ∧
    ((⟨["a.png-rebaked"]⟩ : StorageSt), (some "a.png" : Option String)) ∈
      BadgeInstanceR.rebakeTrace ⟨["a.png"]⟩ { sampleInstance with image := some "a.png" } true ∧
    "a.png" ∉ (["a.png-rebaked"] : List String) :=
  ⟨by rfl, by rw [show BadgeInstanceR.rebakeTrace ⟨["a.png"]⟩ { sampleInstance with image := some "a.png" } true = [(⟨["a.png"]⟩, some "a.png"), (⟨["a.png", "a.png-rebaked"]⟩, some "a.png"), (⟨["a.png-rebaked"]⟩, some "a.png"), (⟨["a.png-rebaked"]⟩, some "a.png-rebaked")] from rfl]; exact List.mem_cons_of_mem _ (List.mem_cons_of_mem _ (List.mem_cons_self _ _)), by decide⟩

/-- C9 as amended: rebake writes the freshly baked image to storage under
a fresh name before deleting the old file, the stored file set for the
assertion is never empty at any observable state, and the persisted image
reference is swapped to the new file as the last step — but that swap
happens only after the old file is already deleted, so the third
observable state carries a reference to a missing file. -/
theorem rebake_write_then_delete (st : StorageSt) (b : BadgeInstanceR) (old : String)
    (him : b.image = some old) (hf : old ∈ st.files) :
    ∃ n, n ∉ st.files ∧ n ≠ old ∧
      b.rebakeTrace st true =
        [(st, some old), (⟨st.files ++ [n]⟩, some old),
         (⟨(st.files ++ [n]).filter (fun f => f ≠ old)⟩, some old),
         (⟨(st.files ++ [n]).filter (fun f => f ≠ old)⟩, some n)] ∧
      n ∈ (st.files ++ [n]).filter (fun f => f ≠ old) ∧
      old ∉ (st.files ++ [n]).filter (fun f => f ≠ old) ∧
      (∀ s ∈ b.rebakeTrace st true, s.1.files ≠ []) := by
  refine ⟨(st.saveFile (generate_rebaked_filename old (b.badgeclass.image.getD ""))).2,
    saveFile_snd_fresh st _, ?_, ?_, ?_, ?_, ?_⟩
  · intro hc
    exact saveFile_snd_fresh st _ (hc ▸ hf)
  · rw [BadgeInstanceR.rebakeTrace, him]
    rfl
  · refine List.mem_filter.mpr ⟨List.mem_append_right _ (List.mem_cons_self _ _), ?_⟩
    have hne : (st.saveFile (generate_rebaked_filename old (b.badgeclass.image.getD ""))).2 ≠
        old := fun hc => saveFile_snd_fresh st _ (hc ▸ hf)
    simp [hne]
  · intro hc
    have := (List.mem_filter.mp hc).2
    simp at this
  · have htr : b.rebakeTrace st true =
        [(st, some old),
         (⟨st.files ++ [(st.saveFile (generate_rebaked_filename old
            (b.badgeclass.image.getD ""))).2]⟩, some old),
         (⟨(st.files ++ [(st.saveFile (generate_rebaked_filename old
            (b.badgeclass.image.getD ""))).2]).filter (fun f => f ≠ old)⟩, some old),
         (⟨(st.files ++ [(st.saveFile (generate_rebaked_filename old
            (b.badgeclass.image.getD ""))).2]).filter (fun f => f ≠ old)⟩,
          some (st.saveFile (generate_rebaked_filename old
            (b.badgeclass.image.getD ""))).2)] := by
      rw [BadgeInstanceR.rebakeTrace, him]
      rfl
    rw [htr]
    intro s hs
    have hmemn : (st.saveFile (generate_rebaked_filename old (b.badgeclass.image.getD ""))).2 ∈
        (st.files ++ [(st.saveFile (generate_rebaked_filename old
          (b.badgeclass.image.getD ""))).2]).filter (fun f => f ≠ old) := by
      refine List.mem_filter.mpr ⟨List.mem_append_right _ (List.mem_cons_self _ _), ?_⟩
      have hne : (st.saveFile (generate_rebaked_filename old (b.badgeclass.image.getD ""))).2 ≠
          old := fun hc => saveFile_snd_fresh st _ (hc ▸ hf)
      simp [hne]
    simp only [List.mem_cons, List.not_mem_nil, or_false] at hs
    rcases hs with rfl | rfl | rfl | rfl
    · exact List.ne_nil_of_mem hf
    · exact List.ne_nil_of_mem (List.mem_append_right _ (List.mem_cons_self _ _))
    · exact List.ne_nil_of_mem hmemn
    · exact List.ne_nil_of_mem hmemn

/-- Witness for C9 as amended at the concrete storage and assertion. -/
theorem rebake_write_then_delete_witness :
    ∃ n, n ∉ (⟨["a.png"]⟩ : StorageSt).files ∧ n ≠ "a.png" ∧
      BadgeInstanceR.rebakeTrace ⟨["a.png"]⟩ { sampleInstance with image := some "a.png" }
          true =
        [(⟨["a.png"]⟩, some "a.png"), (⟨["a.png"] ++ [n]⟩, some "a.png"),
         (⟨(["a.png"] ++ [n]).filter (fun f => f ≠ "a.png")⟩, some "a.png"),
         (⟨(["a.png"] ++ [n]).filter (fun f => f ≠ "a.png")⟩, some n)] ∧
      n ∈ (["a.png"] ++ [n]).filter (fun f => f ≠ "a.png") ∧
      "a.png" ∉ (["a.png"] ++ [n]).filter (fun f => f ≠ "a.png") ∧
      (∀ s ∈ BadgeInstanceR.rebakeTrace ⟨["a.png"]⟩
          { sampleInstance with image := some "a.png" } true, s.1.files ≠ []) :=
  rebake_write_then_delete ⟨["a.png"]⟩ { sampleInstance with image := some "a.png" } "a.png"
    rfl (by decide)

theorem syncFold_append {α δ : Type} (kRow : α → String) (kDesc : δ → String)
    (addFn : Table α → δ → Table α) (ex : List String)
    (hAdd : ∀ (st : Table α) (d : δ), ∃ ext, (addFn st d).rows = st.rows ++ ext ∧
      (∀ p ∈ ext, kRow p.2 = kDesc d) ∧
      kDesc d ∈ (addFn st d).rows.map (fun p => kRow p.2)) :
    ∀ (l : List δ) (st : Table α), ∃ ext,
      (l.foldl (fun st d => if kDesc d ∈ ex then st else addFn st d) st).rows =
        st.rows ++ ext ∧ ∀ p ∈ ext, kRow p.2 ∈ l.map kDesc := by
  intro l
  induction l with
  | nil => intro st; exact ⟨[], by simp, by simp⟩
  | cons d l' ih =>
    intro st
    simp only [List.foldl_cons]
    by_cases hd : kDesc d ∈ ex
    · rw [if_pos hd]
      obtain ⟨ext, h1, h2⟩ := ih st
      exact ⟨ext, h1, fun p hp => List.mem_cons_of_mem _ (h2 p hp)⟩
    · rw [if_neg hd]
      obtain ⟨ext1, ha1, ha2, _⟩ := hAdd st d
      obtain ⟨ext2, h1, h2⟩ := ih (addFn st d)
      refine ⟨ext1 ++ ext2, by rw [h1, ha1, List.append_assoc], ?_⟩
      intro p hp
      rcases List.mem_append.mp hp with hp | hp
      · rw [ha2 p hp]
        exact List.mem_cons_self _ _
      · exact List.mem_cons_of_mem _ (h2 p hp)

theorem syncFold_key_mem {α δ : Type} (kRow : α → String) (kDesc : δ → String)
    (addFn : Table α → δ → Table α) (ex : List String)
    (hAdd : ∀ (st : Table α) (d : δ), ∃ ext, (addFn st d).rows = st.rows ++ ext ∧
      (∀ p ∈ ext, kRow p.2 = kDesc d) ∧
      kDesc d ∈ (addFn st d).rows.map (fun p => kRow p.2)) :
    ∀ (l : List δ) (st : Table α),
      (∀ x ∈ ex, x ∈ st.rows.map (fun p => kRow p.2)) → ∀ d ∈ l, kDesc d ∈
        (l.foldl (fun st d => if kDesc d ∈ ex then st else addFn st d) st).rows.map
          (fun p => kRow p.2) := by
  intro l
  induction l with
  | nil => intro st _ d hd; exact absurd hd (List.not_mem_nil _)
  | cons d0 l' ih =>
    intro st hEx d hd
    simp only [List.foldl_cons]
    have hmono : ∀ (stE : Table α) (x : String), x ∈ stE.rows.map (fun p => kRow p.2) →
        x ∈ (l'.foldl (fun st d => if kDesc d ∈ ex then st else addFn st d) stE).rows.map
          (fun p => kRow p.2) := by
      intro stE x hx
      obtain ⟨ext, h1, _⟩ := syncFold_append kRow kDesc addFn ex hAdd l' stE
      rw [h1, List.map_append]
      exact List.mem_append_left _ hx
    have hstep : ∀ x, x ∈ st.rows.map (fun p => kRow p.2) →
        x ∈ (if kDesc d0 ∈ ex then st else addFn st d0).rows.map (fun p => kRow p.2) := by
      intro x hx
      by_cases hd0 : kDesc d0 ∈ ex
      · rwa [if_pos hd0]
      · rw [if_neg hd0]
        obtain ⟨ext1, ha1, _, _⟩ := hAdd st d0
        rw [ha1, List.map_append]
        exact List.mem_append_left _ hx
    rcases List.mem_cons.mp hd with rfl | hd
    · by_cases hd0 : kDesc d ∈ ex
      · rw [if_pos hd0]
        exact hmono st _ (hEx _ hd0)
      · rw [if_neg hd0]
        obtain ⟨_, _, _, h3⟩ := hAdd st d
        exact hmono (addFn st d) _ h3
    · exact ih (if kDesc d0 ∈ ex then st else addFn st d0)
        (fun x hx => hstep x (hEx x hx)) d hd

theorem syncFold_id {α δ : Type} (kDesc : δ → String) (addFn : Table α → δ → Table α)
    (ex : List String) :
    ∀ (l : List δ) (st : Table α), (∀ d ∈ l, kDesc d ∈ ex) →
      l.foldl (fun st d => if kDesc d ∈ ex then st else addFn st d) st = st := by
  intro l
  induction l with
  | nil => intro st _; rfl
  | cons d l' ih =>
    intro st h
    simp only [List.foldl_cons, if_pos (h d (List.mem_cons_self _ _))]
    exact ih st (fun d' hd' => h d' (List.mem_cons_of_mem _ hd'))

theorem syncRows_idem {α δ : Type} (kRow : α → String) (kDesc : δ → String)
    (addFn : Table α → δ → Table α)
    (hAdd : ∀ (st : Table α) (d : δ), ∃ ext, (addFn st d).rows = st.rows ++ ext ∧
      (∀ p ∈ ext, kRow p.2 = kDesc d) ∧
      kDesc d ∈ (addFn st d).rows.map (fun p => kRow p.2))
    (t : Table α) (v : List δ) :
    syncRows kRow kDesc addFn (syncRows kRow kDesc addFn t v) v =
      syncRows kRow kDesc addFn t v := by
  set tE := syncRows kRow kDesc addFn t v with htE
  have hP : ∀ p ∈ tE.rows, kRow p.2 ∈ v.map kDesc := by
    intro p hp
    rw [htE] at hp
    simp only [syncRows] at hp
    have := List.mem_filter.mp hp
    simpa using this.2
  have hkeys : ∀ d ∈ v, kDesc d ∈ tE.rows.map (fun p => kRow p.2) := by
    intro d hd
    have h1 : kDesc d ∈
        (v.foldl (fun st d => if kDesc d ∈ t.rows.map (fun p => kRow p.2) then st
          else addFn st d) t).rows.map (fun p => kRow p.2) :=
      syncFold_key_mem kRow kDesc addFn _ hAdd v t (fun x hx => hx) d hd
    obtain ⟨q, hq, hqk⟩ := List.mem_map.mp h1
    refine List.mem_map.mpr ⟨q, ?_, hqk⟩
    rw [htE]
    simp only [syncRows]
    refine List.mem_filter.mpr ⟨hq, ?_⟩
    simp only [decide_eq_true_eq]
    rw [hqk]
    exact List.mem_map_of_mem kDesc hd
  show syncRows kRow kDesc addFn tE v = tE
  simp only [syncRows]
  rw [syncFold_id kDesc addFn _ v tE (fun d hd => by
    have := hkeys d hd
    simpa using this)]
  rw [List.filter_eq_self.mpr (fun p hp => by simpa using hP p hp)]

theorem create_addOk {α : Type} (kRow : α → String) :
    ∀ (st : Table α) (d : α), ∃ ext, (st.create d).rows = st.rows ++ ext ∧
      (∀ p ∈ ext, kRow p.2 = kRow d) ∧
      kRow d ∈ (st.create d).rows.map (fun p => kRow p.2) := by
  intro st d
  refine ⟨[(st.nextPk, d)], rfl, ?_, ?_⟩
  · intro p hp
    rcases List.mem_cons.mp hp with rfl | hp
    · rfl
    · exact absurd hp (List.not_mem_nil _)
  · rw [Table.create]
    simp

theorem tagSync_idem (t : Table String) (v : List String) :
    tagSync (tagSync t v) v = tagSync t v :=
  syncRows_idem id id _ (create_addOk id) t v

theorem alignmentSync_idem (t : Table AlignmentR) (v : List AlignmentR) :
    alignmentSync (alignmentSync t v) v = alignmentSync t v :=
  syncRows_idem alignmentIdentity alignmentIdentity _ (create_addOk alignmentIdentity) t v

theorem evidence_addOk :
    ∀ (st : Table EvidenceR) (d : EvidenceR),
      ∃ ext, ((if st.rows.any (fun p => p.2 == d) then st else st.create d) : Table _).rows =
        st.rows ++ ext ∧
      (∀ p ∈ ext, evidenceKey p.2.narrative p.2.evidence_url = evidenceKey d.narrative
        d.evidence_url) ∧
      evidenceKey d.narrative d.evidence_url ∈
        ((if st.rows.any (fun p => p.2 == d) then st else st.create d) : Table _).rows.map
          (fun p => evidenceKey p.2.narrative p.2.evidence_url) := by
  intro st d
  by_cases h : st.rows.any (fun p => p.2 == d) = true
  · rw [if_pos h]
    obtain ⟨p, hp, hpd⟩ := List.any_eq_true.mp h
    have hpd' : p.2 = d := by simpa using hpd
    refine ⟨[], by simp, by simp, ?_⟩
    refine List.mem_map.mpr ⟨p, hp, by rw [hpd']⟩
  · rw [if_neg h]
    obtain ⟨ext, h1, h2, h3⟩ := create_addOk
      (fun e => evidenceKey e.narrative e.evidence_url) st d
    exact ⟨ext, h1, h2, h3⟩

theorem evidenceSync_idem (t : Table EvidenceR) (v : List EvidenceR) :
    evidenceSync (evidenceSync t v) v = evidenceSync t v :=
  syncRows_idem _ _ _ evidence_addOk t v

theorem Table.map_fst_updateRow {α : Type} (t : Table α) (pk : Nat) (f : α → α) :
    (t.updateRow pk f).rows.map Prod.fst = t.rows.map Prod.fst := by
  rw [Table.updateRow, List.map_map]
  refine List.map_congr_left ?_
  intro p _
  by_cases hp : p.1 = pk
  · simp [Function.comp, hp]
  · simp [Function.comp, hp]

theorem Table.WF_create {α : Type} {t : Table α} (h : t.WF) (a : α) : (t.create a).WF := by
  obtain ⟨h1, h2⟩ := h
  constructor
  · rw [Table.create]
    simp only [List.map_append, List.map_cons, List.map_nil]
    rw [List.nodup_append]
    refine ⟨h1, List.nodup_singleton _, ?_⟩
    intro x hx hx'
    simp only [List.mem_singleton] at hx'
    obtain ⟨p, hp, hpk⟩ := List.mem_map.mp hx
    have := h2 p hp
    omega
  · intro p hp
    rw [Table.create] at hp
    rcases List.mem_append.mp hp with hp | hp
    · have := h2 p hp
      simp only [Table.create]
      omega
    · rcases List.mem_cons.mp hp with rfl | hp
      · simp [Table.create]
      · exact absurd hp (List.not_mem_nil _)

theorem Table.WF_updateRow {α : Type} {t : Table α} (h : t.WF) (pk : Nat) (f : α → α) :
    (t.updateRow pk f).WF := by
  obtain ⟨h1, h2⟩ := h
  constructor
  · rw [Table.map_fst_updateRow]
    exact h1
  · intro p hp
    rw [Table.updateRow] at hp
    obtain ⟨q, hq, hqe⟩ := List.mem_map.mp hp
    have := h2 q hq
    by_cases hqq : q.1 = pk
    · rw [if_pos hqq] at hqe
      rw [← hqe]
      exact this
    · rw [if_neg hqq] at hqe
      rw [← hqe]
      exact this

theorem eq_of_mem_fst_nodup {α : Type} {l : List (Nat × α)} (h : (l.map Prod.fst).Nodup)
    {p q : Nat × α} (hp : p ∈ l) (hq : q ∈ l) (hpq : p.1 = q.1) : p = q := by
  induction l with
  | nil => exact absurd hp (List.not_mem_nil _)
  | cons x t ih =>
    simp only [List.map_cons, List.nodup_cons] at h
    rcases List.mem_cons.mp hp with rfl | hp' <;> rcases List.mem_cons.mp hq with rfl | hq'
    · rfl
    · exact absurd (hpq ▸ List.mem_map_of_mem Prod.fst hq') h.1
    · exact absurd (hpq ▸ List.mem_map_of_mem Prod.fst hp') h.1
    · exact ih h.2 hp' hq'

theorem Table.updateRow_eq_self {α : Type} {t : Table α} {pk : Nat} {f : α → α}
    (h : ∀ p ∈ t.rows, p.1 = pk → f p.2 = p.2) : t.updateRow pk f = t := by
  rw [Table.updateRow]
  have : t.rows.map (fun p => if p.1 = pk then (p.1, f p.2) else p) = t.rows := by
    rw [show t.rows.map (fun p => if p.1 = pk then (p.1, f p.2) else p) =
        t.rows.map id from ?_, List.map_id]
    refine List.map_congr_left ?_
    intro p hp
    by_cases hpk : p.1 = pk
    · rw [if_pos hpk, h p hp hpk]
      rfl
    · rw [if_neg hpk]
      rfl
  rw [this]

theorem extFold_inv :
    ∀ (l pre : List (String × Json)) (st : Table ExtensionRow) (touched : List Nat),
      st.WF →
      (∀ x ∈ touched, x < st.nextPk) →
      (∀ kv ∈ l, kv.1 ∉ pre.map Prod.fst) →
      ((l.map Prod.fst).Nodup) →
      (∀ kv ∈ pre, ∃ p ∈ st.rows, p.1 ∈ touched ∧ p.2.name = kv.1 ∧
        p.2.original_json = kv.2) →
      (∀ p q, p ∈ st.rows → q ∈ st.rows → p.1 ∈ touched → q.1 ∈ touched →
        p.2.name = q.2.name → p.1 = q.1) →
      (∀ p ∈ st.rows, p.1 ∈ touched → p.2.name ∈ pre.map Prod.fst) →
      (l.foldl extStep (st, touched)).1.WF ∧
      (∀ x ∈ (l.foldl extStep (st, touched)).2, x < (l.foldl extStep (st, touched)).1.nextPk) ∧
      (∀ kv ∈ pre ++ l, ∃ p ∈ (l.foldl extStep (st, touched)).1.rows,
        p.1 ∈ (l.foldl extStep (st, touched)).2 ∧ p.2.name = kv.1 ∧
        p.2.original_json = kv.2) ∧
      (∀ p q, p ∈ (l.foldl extStep (st, touched)).1.rows →
        q ∈ (l.foldl extStep (st, touched)).1.rows →
        p.1 ∈ (l.foldl extStep (st, touched)).2 → q.1 ∈ (l.foldl extStep (st, touched)).2 →
        p.2.name = q.2.name → p.1 = q.1) ∧
      (∀ p ∈ (l.foldl extStep (st, touched)).1.rows,
        p.1 ∈ (l.foldl extStep (st, touched)).2 → p.2.name ∈ (pre ++ l).map Prod.fst) := by
  intro l
  induction l with
  | nil =>
    intro pre st touched hW hB hdisj hl hT hN hM
    simp only [List.foldl_nil, List.append_nil]
    exact ⟨hW, hB, hT, hN, hM⟩
  | cons kv l' ih =>
    intro pre st touched hW hB hdisj hl hT hN hM
    have hkvpre : kv.1 ∉ pre.map Prod.fst := hdisj kv (List.mem_cons_self _ _)
    have happcons : pre ++ kv :: l' = (pre ++ [kv]) ++ l' := by
      rw [List.append_assoc]
      rfl
    have hdisj' : ∀ kv' ∈ l', kv'.1 ∉ (pre ++ [kv]).map Prod.fst := by
      intro kv' hkv' hmem
      rw [List.map_append, List.mem_append] at hmem
      rcases hmem with hmem | hmem
      · exact hdisj kv' (List.mem_cons_of_mem _ hkv') hmem
      · simp only [List.map_cons, List.map_nil, List.mem_singleton] at hmem
        have := (List.nodup_cons.mp hl).1
        exact this (hmem ▸ List.mem_map_of_mem Prod.fst hkv')
    have hl' : (l'.map Prod.fst).Nodup := (List.nodup_cons.mp hl).2
    simp only [List.foldl_cons]
    rcases hfind : st.rows.find? (fun p => p.2.name == kv.1) with _ | p
    · -- no row with this name: create
      have hstep : extStep (st, touched) kv =
          (st.create ⟨kv.1, kv.2⟩, touched ++ [st.nextPk]) := by
        simp only [extStep, hfind]
      rw [hstep, happcons]
      have hWc := Table.WF_create hW ⟨kv.1, kv.2⟩
      refine ih (pre ++ [kv]) _ _ hWc ?_ hdisj' hl' ?_ ?_ ?_
      · intro x hx
        rcases List.mem_append.mp hx with hx | hx
        · have := hB x hx
          simp only [Table.create]
          omega
        · rcases List.mem_cons.mp hx with rfl | hx
          · simp [Table.create]
          · exact absurd hx (List.not_mem_nil _)
      · intro kv0 hkv0
        rcases List.mem_append.mp hkv0 with hkv0 | hkv0
        · obtain ⟨q, hq, hqt, hqn, hqj⟩ := hT kv0 hkv0
          exact ⟨q, List.mem_append_left _ hq, List.mem_append_left _ hqt, hqn, hqj⟩
        · rcases List.mem_cons.mp hkv0 with rfl | hkv0
          · refine ⟨(st.nextPk, ⟨kv0.1, kv0.2⟩), ?_, ?_, rfl, rfl⟩
            · exact List.mem_append_right _ (List.mem_cons_self _ _)
            · exact List.mem_append_right _ (List.mem_cons_self _ _)
          · exact absurd hkv0 (List.not_mem_nil _)
      · intro r s hr hs hrt hst hname
        have hget : ∀ x : Nat × ExtensionRow, x ∈ (st.create ⟨kv.1, kv.2⟩).rows →
            x.1 ∈ touched ++ [st.nextPk] →
            (x ∈ st.rows ∧ x.1 ∈ touched) ∨ x = (st.nextPk, ⟨kv.1, kv.2⟩) := by
          intro x hx hxt
          rcases List.mem_append.mp hx with hx | hx
          · left
            refine ⟨hx, ?_⟩
            rcases List.mem_append.mp hxt with hxt | hxt
            · exact hxt
            · rcases List.mem_cons.mp hxt with hxe | hxt
              · exact absurd (hxe ▸ hW.2 x hx) (lt_irrefl _)
              · exact absurd hxt (List.not_mem_nil _)
          · rcases List.mem_cons.mp hx with rfl | hx
            · right; rfl
            · exact absurd hx (List.not_mem_nil _)
        rcases hget r hr hrt with ⟨hr', hrtE⟩ | rfl <;>
          rcases hget s hs hst with ⟨hs', hstE⟩ | rfl
        · exact hN r s hr' hs' hrtE hstE hname
        · have hrn : r.2.name = kv.1 := hname
          exact absurd (hrn ▸ hM r hr' hrtE) hkvpre
        · have hsn : s.2.name = kv.1 := hname.symm
          exact absurd (hsn ▸ hM s hs' hstE) hkvpre
        · rfl
      · intro r hr hrt
        rcases List.mem_append.mp hr with hr | hr
        · rcases List.mem_append.mp hrt with hrt | hrt
          · rw [List.map_append, List.mem_append]
            exact Or.inl (hM r hr hrt)
          · rcases List.mem_cons.mp hrt with hxe | hrt
            · exact absurd (hxe ▸ hW.2 r hr) (lt_irrefl _)
            · exact absurd hrt (List.not_mem_nil _)
        · rcases List.mem_cons.mp hr with rfl | hr
          · rw [List.map_append, List.mem_append]
            right
            simp
          · exact absurd hr (List.not_mem_nil _)
    · -- a row with this name exists: update its json in place
      have hpmem : p ∈ st.rows := List.mem_of_find?_eq_some hfind
      have hpname : p.2.name = kv.1 := by simpa using List.find?_some hfind
      have hpt : p.1 ∉ touched := by
        intro hc
        exact absurd (hpname ▸ hM p hpmem hc) hkvpre
      have hstep : extStep (st, touched) kv =
          (st.updateRow p.1 (fun e => { e with original_json := kv.2 }), touched ++ [p.1]) := by
        simp only [extStep, hfind]
      rw [hstep, happcons]
      set f : ExtensionRow → ExtensionRow := fun e => { e with original_json := kv.2 } with hf
      have hrows : (st.updateRow p.1 f).rows =
          st.rows.map (fun q => if q.1 = p.1 then (q.1, f q.2) else q) := rfl
      have hTfst : ∀ q : Nat × ExtensionRow,
          ((if q.1 = p.1 then (q.1, f q.2) else q) : Nat × ExtensionRow).1 = q.1 := by
        intro q
        by_cases hq : q.1 = p.1
        · rw [if_pos hq]
        · rw [if_neg hq]
      have hTname : ∀ q : Nat × ExtensionRow,
          ((if q.1 = p.1 then (q.1, f q.2) else q) : Nat × ExtensionRow).2.name = q.2.name := by
        intro q
        by_cases hq : q.1 = p.1
        · rw [if_pos hq]
        · rw [if_neg hq]
      have hWu := Table.WF_updateRow hW p.1 f
      refine ih (pre ++ [kv]) _ _ hWu ?_ hdisj' hl' ?_ ?_ ?_
      · intro x hx
        rcases List.mem_append.mp hx with hx | hx
        · exact hB x hx
        · rcases List.mem_cons.mp hx with rfl | hx
          · exact hW.2 p hpmem
          · exact absurd hx (List.not_mem_nil _)
      · intro kv0 hkv0
        rcases List.mem_append.mp hkv0 with hkv0 | hkv0
        · obtain ⟨q, hq, hqt, hqn, hqj⟩ := hT kv0 hkv0
          have hqne : q.1 ≠ p.1 := fun hc => hpt (hc ▸ hqt)
          refine ⟨q, ?_, List.mem_append_left _ hqt, hqn, hqj⟩
          rw [hrows]
          have : (if q.1 = p.1 then (q.1, f q.2) else q) = q := if_neg hqne
          exact this ▸ List.mem_map_of_mem _ hq
        · rcases List.mem_cons.mp hkv0 with rfl | hkv0
          · refine ⟨(p.1, f p.2), ?_, ?_, ?_, rfl⟩
            · rw [hrows]
              have : (if p.1 = p.1 then (p.1, f p.2) else p) = (p.1, f p.2) := if_pos rfl
              exact this ▸ List.mem_map_of_mem _ hpmem
            · exact List.mem_append_right _ (List.mem_cons_self _ _)
            · exact hpname
          · exact absurd hkv0 (List.not_mem_nil _)
      · intro r s hr hs hrt hst hname
        rw [hrows] at hr hs
        obtain ⟨r0, hr0, hr0e⟩ := List.mem_map.mp hr
        obtain ⟨s0, hs0, hs0e⟩ := List.mem_map.mp hs
        have hrfst : r.1 = r0.1 := by rw [← hr0e]; exact hTfst r0
        have hsfst : s.1 = s0.1 := by rw [← hs0e]; exact hTfst s0
        have hrname : r.2.name = r0.2.name := by rw [← hr0e]; exact hTname r0
        have hsname : s.2.name = s0.2.name := by rw [← hs0e]; exact hTname s0
        have hcase : ∀ x0 : Nat × ExtensionRow, x0 ∈ st.rows → x0.1 ∈ touched ++ [p.1] →
            x0.1 ∈ touched ∨ x0 = p := by
          intro x0 hx0 hx0t
          rcases List.mem_append.mp hx0t with hx0t | hx0t
          · exact Or.inl hx0t
          · rcases List.mem_cons.mp hx0t with hxe | hx0t
            · exact Or.inr (eq_of_mem_fst_nodup hW.1 hx0 hpmem hxe)
            · exact absurd hx0t (List.not_mem_nil _)
        rw [hrfst, hsfst]
        rcases hcase r0 hr0 (hrfst ▸ hrt) with hrtE | rfl <;>
          rcases hcase s0 hs0 (hsfst ▸ hst) with hstE | rfl
        · exact hN r0 s0 hr0 hs0 hrtE hstE (by rw [← hrname, ← hsname, hname])
        · have : r0.2.name = kv.1 := by rw [← hrname, hname, hsname, hpname]
          exact absurd (this ▸ hM r0 hr0 hrtE) hkvpre
        · have : s0.2.name = kv.1 := by rw [← hsname, ← hname, hrname, hpname]
          exact absurd (this ▸ hM s0 hs0 hstE) hkvpre
        · rfl
      · intro r hr hrt
        rw [hrows] at hr
        obtain ⟨r0, hr0, hr0e⟩ := List.mem_map.mp hr
        have hrfst : r.1 = r0.1 := by rw [← hr0e]; exact hTfst r0
        have hrname : r.2.name = r0.2.name := by rw [← hr0e]; exact hTname r0
        have hcase : r0.1 ∈ touched ∨ r0 = p := by
          rcases List.mem_append.mp (hrfst ▸ hrt) with h | h
          · exact Or.inl h
          · rcases List.mem_cons.mp h with hxe | h
            · exact Or.inr (eq_of_mem_fst_nodup hW.1 hr0 hpmem hxe)
            · exact absurd h (List.not_mem_nil _)
        rw [List.map_append, List.mem_append]
        rcases hcase with h | rfl
        · exact Or.inl (hrname ▸ hM r0 hr0 h)
        · right
          rw [hrname, hpname]
          simp

theorem ext_second_fold (tE : Table ExtensionRow) (hW : tE.WF)
    (huniq : ∀ p q, p ∈ tE.rows → q ∈ tE.rows → p.2.name = q.2.name → p = q) :
    ∀ (l : List (String × Json)) (acc : List Nat),
      (∀ kv ∈ l, ∃ p ∈ tE.rows, p.2.name = kv.1 ∧ p.2.original_json = kv.2) →
      ∃ tch, l.foldl extStep (tE, acc) = (tE, acc ++ tch) ∧
        ∀ p ∈ tE.rows, (∃ kv ∈ l, p.2.name = kv.1) → p.1 ∈ tch := by
  intro l
  induction l with
  | nil =>
    intro acc _
    refine ⟨[], by simp, ?_⟩
    intro p _ ⟨kv, hkv, _⟩
    exact absurd hkv (List.not_mem_nil _)
  | cons kv l' ih =>
    intro acc hD
    obtain ⟨p, hp, hpn, hpj⟩ := hD kv (List.mem_cons_self _ _)
    rcases hfind : tE.rows.find? (fun q => q.2.name == kv.1) with _ | q0
    · exfalso
      have := List.find?_eq_none.mp hfind p hp
      simp [hpn] at this
    · have hq0mem : q0 ∈ tE.rows := List.mem_of_find?_eq_some hfind
      have hq0name : q0.2.name = kv.1 := by simpa using List.find?_some hfind
      have hq0p : q0 = p := huniq q0 p hq0mem hp (by rw [hq0name, hpn])
      have hupd : tE.updateRow q0.1 (fun e => { e with original_json := kv.2 }) = tE := by
        refine Table.updateRow_eq_self ?_
        intro r hr hrpk
        have hrq0 : r = q0 := eq_of_mem_fst_nodup hW.1 hr hq0mem hrpk
        rw [hrq0, hq0p, ← hpj]
      have hstep : extStep (tE, acc) kv = (tE, acc ++ [q0.1]) := by
        simp only [extStep, hfind, hupd]
      obtain ⟨tch, htch, hcov⟩ := ih (acc ++ [q0.1]) (fun kv' hkv' =>
        hD kv' (List.mem_cons_of_mem _ hkv'))
      refine ⟨q0.1 :: tch, ?_, ?_⟩
      · simp only [List.foldl_cons, hstep, htch, List.append_assoc]
        rfl
      · intro r hr ⟨kv', hkv', hrn⟩
        rcases List.mem_cons.mp hkv' with rfl | hkv'
        · have : r = q0 := huniq r q0 hr hq0mem (by rw [hrn, hq0name])
          rw [this]
          exact List.mem_cons_self _ _
        · exact List.mem_cons_of_mem _ (hcov r hr ⟨kv', hkv', hrn⟩)

theorem extensionSync_idem (t : Table ExtensionRow) (value : List (String × Json))
    (hW : t.WF) (hv : (value.map Prod.fst).Nodup) :
    extensionSync (extensionSync t value) value = extensionSync t value := by
  obtain ⟨hW1, hB1, hT1, hN1, hM1⟩ := extFold_inv value [] t [] hW (by simp) (by simp) hv
    (by simp) (by simp) (by simp)
  set res := value.foldl extStep (t, []) with hres
  set tE := extensionSync t value with htE
  have htEdef : tE = ⟨res.1.rows.filter (fun p => p.1 ∈ res.2), res.1.nextPk⟩ := rfl
  have hmemtE : ∀ p, p ∈ tE.rows ↔ p ∈ res.1.rows ∧ p.1 ∈ res.2 := by
    intro p
    rw [htEdef]
    simp [List.mem_filter]
  have hWtE : tE.WF := by
    constructor
    · rw [htEdef]
      exact hW1.1.sublist (List.Sublist.map Prod.fst (List.filter_sublist _))
    · intro p hp
      rw [htEdef]
      exact hW1.2 p ((hmemtE p).mp hp).1
  have huniq : ∀ p q, p ∈ tE.rows → q ∈ tE.rows → p.2.name = q.2.name → p = q := by
    intro p q hp hq hname
    obtain ⟨hp1, hp2⟩ := (hmemtE p).mp hp
    obtain ⟨hq1, hq2⟩ := (hmemtE q).mp hq
    exact eq_of_mem_fst_nodup hW1.1 hp1 hq1 (hN1 p q hp1 hq1 hp2 hq2 hname)
  have hD : ∀ kv ∈ value, ∃ p ∈ tE.rows, p.2.name = kv.1 ∧ p.2.original_json = kv.2 := by
    intro kv hkv
    obtain ⟨p, hp, hpt, hpn, hpj⟩ := hT1 kv (by simpa using hkv)
    exact ⟨p, (hmemtE p).mpr ⟨hp, hpt⟩, hpn, hpj⟩
  have hRow : ∀ p ∈ tE.rows, ∃ kv ∈ value, p.2.name = kv.1 := by
    intro p hp
    obtain ⟨hp1, hp2⟩ := (hmemtE p).mp hp
    have := hM1 p hp1 hp2
    simp only [List.nil_append] at this
    obtain ⟨kv, hkv, hkvn⟩ := List.mem_map.mp this
    exact ⟨kv, hkv, hkvn.symm⟩
  obtain ⟨tch, htch, hcov⟩ := ext_second_fold tE hWtE huniq value [] hD
  show (let res2 := value.foldl extStep (tE, []);
    (⟨res2.1.rows.filter (fun p => p.1 ∈ res2.2), res2.1.nextPk⟩ : Table ExtensionRow)) = tE
  simp only [htch, List.nil_append]
  rw [List.filter_eq_self.mpr ?_]
  · intro p hp
    simp only [decide_eq_true_eq]
    exact hcov p hp (let ⟨kv, hkv, hn⟩ := hRow p hp; ⟨kv, hkv, hn⟩)

theorem foldl_fixed {β γ : Type} (f : β → γ → β) (s : β) (l : List γ)
    (h : ∀ x ∈ l, f s x = s) : l.foldl f s = s := by
  induction l with
  | nil => rfl
  | cons x t ih =>
    simp only [List.foldl_cons, h x (List.mem_cons_self _ _)]
    exact ih (fun y hy => h y (List.mem_cons_of_mem _ hy))

theorem ownersCount_append (l1 l2 : List (Nat × StaffRow)) (n : Nat) :
    ownersCount ⟨l1 ++ l2, n⟩ = ownersCount ⟨l1, n⟩ + ownersCount ⟨l2, n⟩ := by
  simp [ownersCount, List.filter_append]

theorem ownersCount_deleteRow {t : Table StaffRow} {x : Nat × StaffRow}
    (hnodup : (t.rows.map Prod.fst).Nodup) (hx : x ∈ t.rows) :
    ownersCount (t.deleteRow x.1) =
      if x.2.role = StaffRole.owner then ownersCount t - 1 else ownersCount t := by
  obtain ⟨l1, l2, hsplit⟩ := List.append_of_mem hx
  have hn := hnodup
  rw [hsplit] at hn
  simp only [List.map_append, List.map_cons] at hn
  rw [List.nodup_append] at hn
  have hx1 : x.1 ∉ l1.map Prod.fst := fun hc => hn.2.2 hc (List.mem_cons_self _ _)
  have hx2 : x.1 ∉ l2.map Prod.fst := (List.nodup_cons.mp hn.2.1).1
  have hrows : (t.deleteRow x.1).rows = l1 ++ l2 := by
    rw [Table.deleteRow, hsplit, List.filter_append, List.filter_cons]
    simp only [decide_not]
    have hl1 : l1.filter (fun p => !decide (p.1 = x.1)) = l1 := by
      refine List.filter_eq_self.mpr ?_
      intro p hp
      have hne : p.1 ≠ x.1 := fun hc => hx1 (hc ▸ List.mem_map_of_mem Prod.fst hp)
      simp [hne]
    have hl2 : l2.filter (fun p => !decide (p.1 = x.1)) = l2 := by
      refine List.filter_eq_self.mpr ?_
      intro p hp
      have hne : p.1 ≠ x.1 := fun hc => hx2 (hc ▸ List.mem_map_of_mem Prod.fst hp)
      simp [hne]
    rw [hl1, hl2]
    simp
  have hcount : ownersCount t =
      ownersCount ⟨l1, t.nextPk⟩ + ((if x.2.role = StaffRole.owner then 1 else 0) +
        ownersCount ⟨l2, t.nextPk⟩) := by
    have : t = ⟨l1 ++ x :: l2, t.nextPk⟩ := by
      cases t
      simp only at hsplit
      rw [hsplit]
    rw [this]
    simp only [ownersCount, List.filter_append, List.filter_cons, List.length_append]
    by_cases hr : x.2.role = StaffRole.owner
    · rw [if_pos hr]
      rw [if_pos (by simp [hr])]
      simp [List.length_cons]
      omega
    · rw [if_neg hr]
      rw [if_neg (by simp [hr])]
      simp
  have hdel : ownersCount (t.deleteRow x.1) =
      ownersCount ⟨l1, t.nextPk⟩ + ownersCount ⟨l2, t.nextPk⟩ := by
    have : t.deleteRow x.1 = ⟨l1 ++ l2, (t.deleteRow x.1).nextPk⟩ := by
      cases h : t.deleteRow x.1
      simp only at hrows ⊢
      rw [← hrows, h]
    rw [this, ownersCount_append]
    simp [ownersCount]
  rw [hdel, hcount]
  by_cases hr : x.2.role = StaffRole.owner
  · rw [if_pos hr, if_pos hr]
    omega
  · rw [if_neg hr, if_neg hr]
    omega

theorem staffAdd_struct (t : Table StaffRow) (v : List StaffRow) (hW : t.WF) :
    (staffAddPhase t v).WF ∧ t.nextPk ≤ (staffAddPhase t v).nextPk ∧
    ∃ ext, (staffAddPhase t v).rows = t.rows ++ ext := by
  rw [staffAddPhase]
  set ex := t.rows.map (fun p => p.2.user) with hex
  suffices h : ∀ (l : List StaffRow) (st : Table StaffRow), st.WF → t.nextPk ≤ st.nextPk →
      (∀ p ∈ t.rows, p.1 < t.nextPk) →
      (∃ ext, st.rows = t.rows ++ ext ∧ ∀ p ∈ ext, t.nextPk ≤ p.1) →
      (l.foldl (staffAddStep ex) st).WF ∧ t.nextPk ≤ (l.foldl (staffAddStep ex) st).nextPk ∧
      ∃ ext, (l.foldl (staffAddStep ex) st).rows = t.rows ++ ext ∧
        ∀ p ∈ ext, t.nextPk ≤ p.1 by
    obtain ⟨h1, h2, ext, h3, _⟩ := h v t hW (le_refl _) hW.2 ⟨[], by simp, by simp⟩
    exact ⟨h1, h2, ext, h3⟩
  intro l
  induction l with
  | nil =>
    intro st h1 h2 _ h3
    exact ⟨h1, h2, h3⟩
  | cons d l' ih =>
    intro st h1 h2 hbt h3
    simp only [List.foldl_cons]
    by_cases hd : d.user ∈ ex
    · rw [show staffAddStep ex st d = st from by rw [staffAddStep, if_pos hd]]
      exact ih st h1 h2 hbt h3
    · rcases hfind : st.rows.find? (fun p => p.2.user == d.user) with _ | q
      · rw [show staffAddStep ex st d = st.create d from by
          rw [staffAddStep, if_neg hd]
          simp only [hfind]]
        refine ih _ (Table.WF_create h1 d) (le_trans h2 (by simp [Table.create])) hbt ?_
        obtain ⟨ext, hrows, hpk⟩ := h3
        refine ⟨ext ++ [(st.nextPk, d)], ?_, ?_⟩
        · rw [Table.create, hrows, List.append_assoc]
        · intro p hp
          rcases List.mem_append.mp hp with hp | hp
          · exact hpk p hp
          · rcases List.mem_cons.mp hp with rfl | hp
            · exact le_trans h2 (le_refl _)
            · exact absurd hp (List.not_mem_nil _)
      · have hqmem : q ∈ st.rows := List.mem_of_find?_eq_some hfind
        have hquser : q.2.user = d.user := by simpa using List.find?_some hfind
        obtain ⟨ext, hrows, hpk⟩ := h3
        have hqext : q ∈ ext := by
          rcases List.mem_append.mp (hrows ▸ hqmem) with hq | hq
          · exfalso
            exact hd (hquser ▸ List.mem_map_of_mem (fun p => p.2.user) hq)
          · exact hq
        have hqpk : t.nextPk ≤ q.1 := hpk q hqext
        rw [show staffAddStep ex st d =
            st.updateRow q.1 (fun r => { r with role := d.role }) from by
          rw [staffAddStep, if_neg hd]
          simp only [hfind]]
        refine ih _ (Table.WF_updateRow h1 q.1 _) h2 hbt ?_
        refine ⟨ext.map (fun p => if p.1 = q.1 then (p.1, { p.2 with role := d.role }) else p),
          ?_, ?_⟩
        · have hur : (st.updateRow q.1 (fun r => { r with role := d.role })).rows =
              st.rows.map
                (fun p => if p.1 = q.1 then (p.1, { p.2 with role := d.role }) else p) := rfl
          rw [hur, hrows, List.map_append]
          congr 1
          rw [show t.rows.map
            (fun p => if p.1 = q.1 then (p.1, { p.2 with role := d.role }) else p) =
              t.rows.map id from ?_, List.map_id]
          refine List.map_congr_left ?_
          intro p hp
          have hne : p.1 ≠ q.1 := by
            have := hbt p hp
            omega
          rw [if_neg hne]
          rfl
        · intro p hp
          obtain ⟨p0, hp0, hpe⟩ := List.mem_map.mp hp
          have : p.1 = p0.1 := by
            rw [← hpe]
            by_cases hc : p0.1 = q.1
            · rw [if_pos hc]
            · rw [if_neg hc]
          rw [this]
          exact hpk p0 hp0

theorem staffAdd_users (t : Table StaffRow) (v : List StaffRow) :
    ∀ d ∈ v, d.user ∈ (staffAddPhase t v).rows.map (fun p => p.2.user) := by
  rw [staffAddPhase]
  set ex := t.rows.map (fun p => p.2.user) with hex
  have hstepusers : ∀ (st : Table StaffRow) (d : StaffRow) (x : Nat),
      x ∈ st.rows.map (fun p => p.2.user) →
      x ∈ (staffAddStep ex st d).rows.map (fun p => p.2.user) := by
    intro st d x hx
    rw [staffAddStep]
    by_cases hd : d.user ∈ ex
    · rwa [if_pos hd]
    · rw [if_neg hd]
      rcases hfind : st.rows.find? (fun p => p.2.user == d.user) with _ | q
      · rw [show (match st.rows.find? (fun p => p.2.user == d.user) with
            | some p => st.updateRow p.1 (fun r => { r with role := d.role })
            | none => st.create d) = st.create d from by rw [hfind]]
        rw [Table.create, List.map_append]
        exact List.mem_append_left _ hx
      · rw [show (match st.rows.find? (fun p => p.2.user == d.user) with
            | some p => st.updateRow p.1 (fun r => { r with role := d.role })
            | none => st.create d) =
            st.updateRow q.1 (fun r => { r with role := d.role }) from by rw [hfind]]
        rw [Table.updateRow, List.map_map]
        obtain ⟨p, hp, hpe⟩ := List.mem_map.mp hx
        refine List.mem_map.mpr ⟨p, hp, ?_⟩
        simp only [Function.comp]
        by_cases hc : p.1 = q.1
        · rw [if_pos hc]
          exact hpe
        · rw [if_neg hc]
          exact hpe
  have hfold : ∀ (l : List StaffRow) (st : Table StaffRow) (x : Nat),
      x ∈ st.rows.map (fun p => p.2.user) →
      x ∈ (l.foldl (staffAddStep ex) st).rows.map (fun p => p.2.user) := by
    intro l
    induction l with
    | nil => intro st x hx; exact hx
    | cons d l' ih =>
      intro st x hx
      simp only [List.foldl_cons]
      exact ih _ x (hstepusers st d x hx)
  suffices h : ∀ (l : List StaffRow) (st : Table StaffRow),
      (∀ u ∈ ex, u ∈ st.rows.map (fun p => p.2.user)) →
      ∀ d ∈ l, d.user ∈ (l.foldl (staffAddStep ex) st).rows.map (fun p => p.2.user) by
    exact h v t (fun u hu => hu)
  intro l
  induction l with
  | nil => intro st _ d hd; exact absurd hd (List.not_mem_nil _)
  | cons d0 l' ih =>
    intro st hEx d hd
    simp only [List.foldl_cons]
    have hstepEx : ∀ u ∈ ex, u ∈ (staffAddStep ex st d0).rows.map (fun p => p.2.user) :=
      fun u hu => hstepusers st d0 u (hEx u hu)
    rcases List.mem_cons.mp hd with rfl | hd
    · by_cases hdu : d.user ∈ ex
      · exact hfold l' _ d.user (hstepEx _ hdu)
      · refine hfold l' _ d.user ?_
        rw [staffAddStep, if_neg hdu]
        rcases hfind : st.rows.find? (fun p => p.2.user == d.user) with _ | q
        · rw [show (match st.rows.find? (fun p => p.2.user == d.user) with
              | some p => st.updateRow p.1 (fun r => { r with role := d.role })
              | none => st.create d) = st.create d from by rw [hfind]]
          rw [Table.create, List.map_append]
          refine List.mem_append_right _ ?_
          simp
        · rw [show (match st.rows.find? (fun p => p.2.user == d.user) with
              | some p => st.updateRow p.1 (fun r => { r with role := d.role })
              | none => st.create d) =
              st.updateRow q.1 (fun r => { r with role := d.role }) from by rw [hfind]]
          have hqmem : q ∈ st.rows := List.mem_of_find?_eq_some hfind
          have hquser : q.2.user = d.user := by simpa using List.find?_some hfind
          rw [Table.updateRow, List.map_map]
          refine List.mem_map.mpr ⟨q, hqmem, ?_⟩
          simp [Function.comp, hquser]
    · exact ih _ hstepEx d hd

theorem staffAdd_noop (t : Table StaffRow) (v : List StaffRow)
    (h : ∀ d ∈ v, d.user ∈ t.rows.map (fun p => p.2.user)) : staffAddPhase t v = t := by
  rw [staffAddPhase]
  refine foldl_fixed _ _ _ ?_
  intro d hd
  rw [staffAddStep, if_pos (h d hd)]

theorem staffRemove_inv (vUsers : List Nat) :
    ∀ (l : List (Nat × StaffRow)) (st : Table StaffRow),
      (l.map Prod.fst).Nodup →
      (st.rows.map Prod.fst).Nodup →
      (∀ y ∈ l, y ∈ st.rows) →
      (∀ p ∈ st.rows, p.1 ∉ l.map Prod.fst → p.2.user ∉ vUsers →
        p.2.role = StaffRole.owner ∧ ownersCount st = 1) →
      (l.foldl (staffRemoveStep vUsers) st).rows.Sublist st.rows ∧
      (l.foldl (staffRemoveStep vUsers) st).nextPk = st.nextPk ∧
      (∀ p ∈ st.rows, p.2.user ∈ vUsers →
        p ∈ (l.foldl (staffRemoveStep vUsers) st).rows) ∧
      (∀ p ∈ (l.foldl (staffRemoveStep vUsers) st).rows, p.2.user ∉ vUsers →
        p.2.role = StaffRole.owner ∧
          ownersCount (l.foldl (staffRemoveStep vUsers) st) = 1) := by
  intro l
  induction l with
  | nil =>
    intro st _ _ _ hS3
    refine ⟨List.Sublist.refl _, rfl, fun p hp _ => hp, ?_⟩
    intro p hp hpu
    exact hS3 p hp (by simp) hpu
  | cons x l' ih =>
    intro st hl hst hsub hS3
    have hxmem : x ∈ st.rows := hsub x (List.mem_cons_self _ _)
    have hlx : x.1 ∉ l'.map Prod.fst := (List.nodup_cons.mp (by simpa using hl)).1
    have hl' : (l'.map Prod.fst).Nodup := (List.nodup_cons.mp (by simpa using hl)).2
    simp only [List.foldl_cons]
    by_cases hxu : x.2.user ∈ vUsers
    · rw [show staffRemoveStep vUsers st x = st from by rw [staffRemoveStep, if_pos hxu]]
      have hS3' : ∀ p ∈ st.rows, p.1 ∉ l'.map Prod.fst → p.2.user ∉ vUsers →
          p.2.role = StaffRole.owner ∧ ownersCount st = 1 := by
        intro p hp hpl hpu
        by_cases hpx : p.1 = x.1
        · have : p = x := eq_of_mem_fst_nodup hst hp hxmem hpx
          exact absurd (this ▸ hxu) hpu
        · refine hS3 p hp ?_ hpu
          simp only [List.map_cons, List.mem_cons, not_or]
          exact ⟨hpx, hpl⟩
      exact ih st hl' hst (fun y hy => hsub y (List.mem_cons_of_mem _ hy)) hS3'
    · by_cases hcond : x.2.role ≠ StaffRole.owner ∨ 1 < ownersCount st
      · -- delete x
        rw [show staffRemoveStep vUsers st x = st.deleteRow x.1 from by
          rw [staffRemoveStep, if_neg hxu, if_pos hcond]]
        have hdelsub : (st.deleteRow x.1).rows.Sublist st.rows := List.filter_sublist _
        have hdelnodup : ((st.deleteRow x.1).rows.map Prod.fst).Nodup :=
          hst.sublist (List.Sublist.map Prod.fst hdelsub)
        have hmemdel : ∀ p, p ∈ (st.deleteRow x.1).rows ↔ p ∈ st.rows ∧ p.1 ≠ x.1 := by
          intro p
          rw [Table.deleteRow]
          simp [List.mem_filter]
        have hsub' : ∀ y ∈ l', y ∈ (st.deleteRow x.1).rows := by
          intro y hy
          refine (hmemdel y).mpr ⟨hsub y (List.mem_cons_of_mem _ hy), ?_⟩
          intro hc
          exact hlx (hc ▸ List.mem_map_of_mem Prod.fst hy)
        have hS3' : ∀ p ∈ (st.deleteRow x.1).rows, p.1 ∉ l'.map Prod.fst →
            p.2.user ∉ vUsers →
            p.2.role = StaffRole.owner ∧ ownersCount (st.deleteRow x.1) = 1 := by
          intro p hp hpl hpu
          obtain ⟨hpmem, hpx⟩ := (hmemdel p).mp hp
          have hold := hS3 p hpmem (by
            simp only [List.map_cons, List.mem_cons, not_or]
            exact ⟨hpx, hpl⟩) hpu
          have hxrole : x.2.role ≠ StaffRole.owner := by
            rcases hcond with h | h
            · exact h
            · omega
          refine ⟨hold.1, ?_⟩
          rw [ownersCount_deleteRow hst hxmem, if_neg hxrole]
          exact hold.2
        obtain ⟨hA, hB, hC, hD⟩ := ih (st.deleteRow x.1) hl' hdelnodup hsub' hS3'
        refine ⟨hA.trans hdelsub, by rw [hB, Table.deleteRow], ?_, hD⟩
        intro p hp hpu
        refine hC p ?_ hpu
        refine (hmemdel p).mpr ⟨hp, ?_⟩
        intro hc
        have : p = x := eq_of_mem_fst_nodup hst hp hxmem hc
        exact absurd (this ▸ hpu) hxu
      · -- protected: the only owner stays
        rw [show staffRemoveStep vUsers st x = st from by
          rw [staffRemoveStep, if_neg hxu, if_neg hcond]]
        push_neg at hcond
        have hS3' : ∀ p ∈ st.rows, p.1 ∉ l'.map Prod.fst → p.2.user ∉ vUsers →
            p.2.role = StaffRole.owner ∧ ownersCount st = 1 := by
          intro p hp hpl hpu
          by_cases hpx : p.1 = x.1
          · have hpxeq : p = x := eq_of_mem_fst_nodup hst hp hxmem hpx
            have hcount1 : 1 ≤ ownersCount st := by
              have : x ∈ st.rows.filter (fun p => p.2.role == StaffRole.owner) := by
                refine List.mem_filter.mpr ⟨hxmem, ?_⟩
                simp [hcond.1]
              have := List.length_pos.mpr (List.ne_nil_of_mem this)
              simpa [ownersCount] using this
            refine ⟨hpxeq ▸ hcond.1, ?_⟩
            omega
          · refine hS3 p hp ?_ hpu
            simp only [List.map_cons, List.mem_cons, not_or]
            exact ⟨hpx, hpl⟩
        exact ih st hl' hst (fun y hy => hsub y (List.mem_cons_of_mem _ hy)) hS3'

theorem staffRemove_count (vUsers : List Nat) :
    ∀ (l : List (Nat × StaffRow)) (st : Table StaffRow),
      (l.map Prod.fst).Nodup →
      (st.rows.map Prod.fst).Nodup →
      (∀ y ∈ l, y ∈ st.rows) →
      1 ≤ ownersCount st →
      1 ≤ ownersCount (l.foldl (staffRemoveStep vUsers) st) := by
  intro l
  induction l with
  | nil => intro st _ _ _ h; exact h
  | cons x l' ih =>
    intro st hl hst hsub hcount
    have hxmem : x ∈ st.rows := hsub x (List.mem_cons_self _ _)
    have hlx : x.1 ∉ l'.map Prod.fst := (List.nodup_cons.mp (by simpa using hl)).1
    have hl' : (l'.map Prod.fst).Nodup := (List.nodup_cons.mp (by simpa using hl)).2
    simp only [List.foldl_cons]
    by_cases hxu : x.2.user ∈ vUsers
    · rw [show staffRemoveStep vUsers st x = st from by rw [staffRemoveStep, if_pos hxu]]
      exact ih st hl' hst (fun y hy => hsub y (List.mem_cons_of_mem _ hy)) hcount
    · by_cases hcond : x.2.role ≠ StaffRole.owner ∨ 1 < ownersCount st
      · rw [show staffRemoveStep vUsers st x = st.deleteRow x.1 from by
          rw [staffRemoveStep, if_neg hxu, if_pos hcond]]
        have hdelsub : (st.deleteRow x.1).rows.Sublist st.rows := List.filter_sublist _
        have hdelnodup : ((st.deleteRow x.1).rows.map Prod.fst).Nodup :=
          hst.sublist (List.Sublist.map Prod.fst hdelsub)
        have hsub' : ∀ y ∈ l', y ∈ (st.deleteRow x.1).rows := by
          intro y hy
          rw [Table.deleteRow]
          refine List.mem_filter.mpr ⟨hsub y (List.mem_cons_of_mem _ hy), ?_⟩
          simp only [decide_eq_true_eq]
          intro hc
          exact hlx (hc ▸ List.mem_map_of_mem Prod.fst hy)
        have hcountE : 1 ≤ ownersCount (st.deleteRow x.1) := by
          rw [ownersCount_deleteRow hst hxmem]
          by_cases hr : x.2.role = StaffRole.owner
          · rw [if_pos hr]
            rcases hcond with h | h
            · exact absurd hr h
            · omega
          · rw [if_neg hr]
            exact hcount
        exact ih (st.deleteRow x.1) hl' hdelnodup hsub' hcountE
      · rw [show staffRemoveStep vUsers st x = st from by
          rw [staffRemoveStep, if_neg hxu, if_neg hcond]]
        exact ih st hl' hst (fun y hy => hsub y (List.mem_cons_of_mem _ hy)) hcount

theorem staffSync_idem (t : Table StaffRow) (v : List StaffRow) (hW : t.WF) :
    staffSync (staffSync t v) v = staffSync t v := by
  obtain ⟨hW1, _, ext, hrows⟩ := staffAdd_struct t v hW
  obtain ⟨hsub, hpk, hsurv, hL⟩ := staffRemove_inv (v.map (fun d => d.user))
    (staffAddPhase t v).rows (staffAddPhase t v) hW1.1 hW1.1 (fun y hy => hy)
    (fun p hp hpl _ => absurd (List.mem_map_of_mem Prod.fst hp) hpl)
  set s2 := staffRemovePhase (staffAddPhase t v) (v.map (fun d => d.user)) with hs2
  have hsync : staffSync t v = s2 := rfl
  have husers2 : ∀ d ∈ v, d.user ∈ s2.rows.map (fun p => p.2.user) := by
    intro d hd
    have h1 := staffAdd_users t v d hd
    obtain ⟨q, hq, hqu⟩ := List.mem_map.mp h1
    have hqs2 : q ∈ s2.rows := by
      refine hsurv q hq ?_
      rw [hqu]
      exact List.mem_map_of_mem (fun d => d.user) hd
    exact List.mem_map.mpr ⟨q, hqs2, hqu⟩
  have hadd2 : staffAddPhase s2 v = s2 := staffAdd_noop s2 v husers2
  have hrem2 : staffRemovePhase s2 (v.map (fun d => d.user)) = s2 := by
    rw [staffRemovePhase]
    refine foldl_fixed _ _ _ ?_
    intro x hx
    rw [staffRemoveStep]
    by_cases hxu : x.2.user ∈ v.map (fun d => d.user)
    · rw [if_pos hxu]
    · rw [if_neg hxu]
      obtain ⟨hrole, hcnt⟩ := hL x hx hxu
      rw [if_neg ?_]
      push_neg
      refine ⟨hrole, ?_⟩
      have h1 : ownersCount s2 = 1 := hcnt
      omega
  rw [hsync]
  show staffRemovePhase (staffAddPhase s2 v) (v.map (fun d => d.user)) = s2
  rw [hadd2, hrem2]

/-- C7: for each of the five sub-document collection setters — tags,
alignments, evidence, extensions and staff — applying the setter a second
time with the same desired list immediately after the first application is
a no-op: the resulting table (rows and primary-key allocator) is unchanged,
so no rows are created, none are deleted, and no persisted child row is
modified.  The extension setter needs the desired dict keys to be unique
(a Python dict guarantees this) and the staff setter a well-formed table;
both also need the table primary keys to be unique, as the database
guarantees. -/
theorem setter_reconciliation_idempotent :
    (∀ (t : Table String) (v : List String), tagSync (tagSync t v) v = tagSync t v) ∧
    (∀ (t : Table AlignmentR) (v : List AlignmentR),
      alignmentSync (alignmentSync t v) v = alignmentSync t v) ∧
    (∀ (t : Table EvidenceR) (v : List EvidenceR),
      evidenceSync (evidenceSync t v) v = evidenceSync t v) ∧
    (∀ (t : Table ExtensionRow) (v : List (String × Json)),
      t.WF → (v.map Prod.fst).Nodup →
      extensionSync (extensionSync t v) v = extensionSync t v) ∧
    (∀ (t : Table StaffRow) (v : List StaffRow), t.WF →
      staffSync (staffSync t v) v = staffSync t v) :=
  ⟨tagSync_idem, alignmentSync_idem, evidenceSync_idem,
   fun t v hW hv => extensionSync_idem t v hW hv,
   fun t v hW => staffSync_idem t v hW⟩

theorem setter_reconciliation_idempotent_witness :
    Table.WF (⟨[(0, ⟨"A", Json.null⟩)], 1⟩ : Table ExtensionRow) ∧
    (([("A", Json.str "x"), ("B", Json.null)] : List (String × Json)).map Prod.fst).Nodup ∧
    Table.WF (⟨[(0, ⟨7, StaffRole.owner⟩), (1, ⟨8, StaffRole.staff⟩)], 2⟩ : Table StaffRow) ∧
    tagSync (tagSync ⟨[(0, "a")], 1⟩ ["a", "b"]) ["a", "b"] =
      tagSync ⟨[(0, "a")], 1⟩ ["a", "b"] ∧
    extensionSync (extensionSync ⟨[(0, ⟨"A", Json.null⟩)], 1⟩
        [("A", Json.str "x"), ("B", Json.null)]) [("A", Json.str "x"), ("B", Json.null)] =
      extensionSync ⟨[(0, ⟨"A", Json.null⟩)], 1⟩ [("A", Json.str "x"), ("B", Json.null)] ∧
    staffSync (staffSync ⟨[(0, ⟨7, StaffRole.owner⟩), (1, ⟨8, StaffRole.staff⟩)], 2⟩
        [⟨9, StaffRole.editor⟩]) [⟨9, StaffRole.editor⟩] =
      staffSync ⟨[(0, ⟨7, StaffRole.owner⟩), (1, ⟨8, StaffRole.staff⟩)], 2⟩
        [⟨9, StaffRole.editor⟩] :=
  ⟨⟨by decide, by decide⟩, by decide, ⟨by decide, by decide⟩,
   setter_reconciliation_idempotent.1 _ _,
   setter_reconciliation_idempotent.2.2.2.1 _ _ ⟨by decide, by decide⟩ (by decide),
   setter_reconciliation_idempotent.2.2.2.2 _ _ ⟨by decide, by decide⟩⟩

/-- C4: the at-least-one-owner invariant for issuers with a known creator.
First, Issuer.save on an issuer with no OWNER staff record creates one for
created_by, so a saved issuer with a known creator always has at least one
owner (and when there was none, the new row is exactly the created_by
owner record).  Second, the staff_items setter silently skips the removal
of a row that is the last remaining OWNER (the delete condition requires
the role to differ from OWNER or more than one live owner), and as a
consequence the setter as a whole preserves a positive owner count for
every desired list. -/
theorem issuer_owner_invariant :
    (∀ (s : IssuerState) (u : Nat), s.created_by = some u →
      1 ≤ ownersCount (IssuerState.save s).staff) ∧
    (∀ (s : IssuerState) (u : Nat), s.created_by = some u → ownersCount s.staff = 0 →
      (s.staff.nextPk, (⟨u, StaffRole.owner⟩ : StaffRow)) ∈ (IssuerState.save s).staff.rows) ∧
    (∀ (st : Table StaffRow) (p : Nat × StaffRow) (vU : List Nat),
      p.2.user ∉ vU → p.2.role = StaffRole.owner → ownersCount st ≤ 1 →
      staffRemoveStep vU st p = st) ∧
    (∀ (t : Table StaffRow) (v : List StaffRow), t.WF → 1 ≤ ownersCount t →
      1 ≤ ownersCount (staffSync t v)) := by
  refine ⟨?_, ?_, ?_, ?_⟩
  · intro s u hu
    rw [IssuerState.save]
    by_cases hc : ownersCount s.staff < 1
    · rw [if_pos hc, hu]
      show 1 ≤ ownersCount (s.staff.create ⟨u, StaffRole.owner⟩)
      have h1 : ownersCount (s.staff.create ⟨u, StaffRole.owner⟩) =
          ownersCount s.staff + 1 := by
        simp [ownersCount, Table.create, List.filter_append]
      omega
    · rw [if_neg hc]
      omega
  · intro s u hu h0
    rw [IssuerState.save, if_pos (by omega), hu]
    show _ ∈ (s.staff.create ⟨u, StaffRole.owner⟩).rows
    rw [Table.create]
    simp
  · intro st p vU h1 h2 h3
    rw [staffRemoveStep, if_neg h1, if_neg ?_]
    push_neg
    exact ⟨h2, by omega⟩
  · intro t v hWt hcnt
    obtain ⟨hW1, _, ext, hrows⟩ := staffAdd_struct t v hWt
    have hc1 : 1 ≤ ownersCount (staffAddPhase t v) := by
      have h2 : ownersCount (staffAddPhase t v) =
          ownersCount (⟨t.rows, 0⟩ : Table StaffRow) +
            ownersCount (⟨ext, 0⟩ : Table StaffRow) := by
        rw [show staffAddPhase t v =
          (⟨(staffAddPhase t v).rows, (staffAddPhase t v).nextPk⟩ : Table StaffRow) from rfl]
        rw [hrows]
        exact ownersCount_append t.rows ext _
      have h3 : ownersCount (⟨t.rows, 0⟩ : Table StaffRow) = ownersCount t := rfl
      omega
    exact staffRemove_count (v.map (fun d => d.user)) (staffAddPhase t v).rows
      (staffAddPhase t v) hW1.1 hW1.1 (fun y hy => hy) hc1

theorem issuer_owner_invariant_witness :
    (⟨⟨[], 0⟩, some 5⟩ : IssuerState).created_by = some 5 ∧
    ownersCount (⟨⟨[], 0⟩, some 5⟩ : IssuerState).staff = 0 ∧
    1 ≤ ownersCount (IssuerState.save ⟨⟨[], 0⟩, some 5⟩).staff ∧
    (0, (⟨5, StaffRole.owner⟩ : StaffRow)) ∈ (IssuerState.save ⟨⟨[], 0⟩, some 5⟩).staff.rows ∧
    ((0, (⟨7, StaffRole.owner⟩ : StaffRow)).2.user ∉ ([] : List Nat)) ∧
    ownersCount (⟨[(0, ⟨7, StaffRole.owner⟩)], 1⟩ : Table StaffRow) ≤ 1 ∧
    staffRemoveStep [] ⟨[(0, ⟨7, StaffRole.owner⟩)], 1⟩ (0, ⟨7, StaffRole.owner⟩) =
      ⟨[(0, ⟨7, StaffRole.owner⟩)], 1⟩ ∧
    Table.WF (⟨[(0, ⟨7, StaffRole.owner⟩)], 1⟩ : Table StaffRow) ∧
    1 ≤ ownersCount (staffSync ⟨[(0, ⟨7, StaffRole.owner⟩)], 1⟩ []) :=
  ⟨rfl, rfl,
   issuer_owner_invariant.1 ⟨⟨[], 0⟩, some 5⟩ 5 rfl,
   issuer_owner_invariant.2.1 ⟨⟨[], 0⟩, some 5⟩ 5 rfl rfl,
   by decide, by decide,
   issuer_owner_invariant.2.2.1 ⟨[(0, ⟨7, StaffRole.owner⟩)], 1⟩ (0, ⟨7, StaffRole.owner⟩)
     [] (by decide) rfl (by decide),
   ⟨by decide, by decide⟩,
   issuer_owner_invariant.2.2.2 ⟨[(0, ⟨7, StaffRole.owner⟩)], 1⟩ []
     ⟨by decide, by decide⟩ (by decide)⟩
